import Mathlib

/-!
Verification of the insurance-platform crawl-and-extract engine.

The definitions below are a shallow embedding of the Python sources
(`src/utils.py`, `src/models.py`, `src/policy_schema.py`,
`src/document_processing.py`, `src/product_crawler.py`).  Strings are
modelled as Lean `String` (a wrapped `List Char`); Python dictionaries are
modelled as insertion-ordered association lists; Python floats appearing
only as the three constant confidence scores are modelled as `Rat`
(`1`, `4/5`, `0`).  HTML fetching/parsing and document download are
external effects and are abstracted as oracle parameters.
-/

namespace InsurancePlatform

/-- ASCII whitespace recognised by Python's regex class for whitespace
(space, tab, newline, carriage return, vertical tab, form feed).  The
embedding restricts attention to ASCII text. -/
def isWs (c : Char) : Bool :=
  c = ' ' || c = '\t' || c = '\n' || c = '\r' || c = '\x0b' || c = '\x0c'

/-- A character of the Devanagari block, removed by `utils.strip_hindi`. -/
def isHindi (c : Char) : Bool :=
  decide (0x900 ≤ c.toNat) && decide (c.toNat ≤ 0x97F)

/-- Model of `utils.strip_hindi` on the character list: the regex substitution
removes every Devanagari character. -/
def stripHindiL (l : List Char) : List Char :=
  l.filter (fun c => !isHindi c)

/-- Word-splitting loop: `cur` holds the characters of the current word in
reverse; whitespace flushes a non-empty current word. -/
def wordsAux (cur : List Char) : List Char → List (List Char)
  | [] => if cur.isEmpty then [] else [cur.reverse]
  | c :: rest =>
    if isWs c then
      if cur.isEmpty then wordsAux [] rest
      else cur.reverse :: wordsAux [] rest
    else wordsAux (c :: cur) rest

/-- Split a character list into maximal whitespace-free words, dropping
empty pieces: the semantics of Python's no-argument `str.split`. -/
def wordsL (l : List Char) : List (List Char) := wordsAux [] l

/-- Join words with single spaces. -/
def joinSpace : List (List Char) → List Char
  | [] => []
  | [w] => w
  | w :: ws => w ++ ' ' :: joinSpace ws

/-- Model of `utils.normalize_whitespace` on the character list: collapsing every
whitespace run to a single space and stripping the ends is the same as
splitting into words and rejoining with single spaces. -/
def normalizeWhitespaceL (l : List Char) : List Char :=
  joinSpace (wordsL l)

/-- Model of `utils.clean_text`: strip Devanagari content, then normalize whitespace. -/
def clean_text (s : String) : String :=
  String.mk (normalizeWhitespaceL (stripHindiL s.data))

/-- Python `str.lower` restricted to ASCII letters. -/
def pyLower (s : String) : String :=
  String.mk (s.data.map Char.toLower)

/-- Drop leading whitespace. -/
def trimLeftWs (l : List Char) : List Char := l.dropWhile isWs

/-- Python `str.strip()` on the character list: drop leading and trailing
whitespace. -/
def trimWs (l : List Char) : List Char :=
  ((l.dropWhile isWs).reverse.dropWhile isWs).reverse

/-- Python `str.strip()` on strings. -/
def pyStrip (s : String) : String := String.mk (trimWs s.data)

/-- Python `str.rstrip(":")`: drop trailing colons. -/
def rstripColonL (l : List Char) : List Char :=
  (l.reverse.dropWhile (fun c => c = ':')).reverse

/-- Whether `pat` occurs at the start of `l`. -/
def isStartOf : List Char → List Char → Bool
  | [], _ => true
  | _ :: _, [] => false
  | p :: ps, c :: cs => p = c && isStartOf ps cs

/-- Whether `pat` occurs contiguously anywhere in `l`: the semantics of
Python's `pat in s` on strings. -/
def containsSub (pat : List Char) : List Char → Bool
  | [] => pat.isEmpty
  | c :: rest => isStartOf pat (c :: rest) || containsSub pat rest

/-- Python `pat in s` for strings. -/
def strContains (s pat : String) : Bool := containsSub pat.data s.data

/-- Split a character list at every occurrence of a separator character;
models Python `str.splitlines` for newline-separated text. -/
def splitOnChar (sep : Char) : List Char → List (List Char)
  | [] => [[]]
  | c :: rest =>
    if c = sep then [] :: splitOnChar sep rest
    else
      match splitOnChar sep rest with
      | [] => [[c]]
      | h :: t => (c :: h) :: t

/-- The lines of a text, as strings. -/
def splitLines (s : String) : List String :=
  (splitOnChar '\n' s.data).map String.mk

/-- Python `"\n".join` on a list of strings. -/
def joinNl : List String → String
  | [] => ""
  | [s] => s
  | s :: rest => s ++ "\n" ++ joinNl rest

/-- Model of `utils.iter_unique` (inner recursion with its `seen` set): keep the
first occurrence of each non-empty string, preserving order. -/
def iterUniqueAux (seen : List String) : List String → List String
  | [] => []
  | v :: rest =>
    if v ≠ "" ∧ v ∉ seen then v :: iterUniqueAux (v :: seen) rest
    else iterUniqueAux seen rest

/-- Model of `utils.iter_unique`: yield unique non-empty strings preserving order. -/
def iter_unique (values : List String) : List String := iterUniqueAux [] values

/-- Specification-side formulation of "the duplicate-free union preserving
first-seen order" (the spec's words for the tag merge), to be compared
against the source's `iter_unique`: fold left over the concatenated lists,
appending each element the first time it is seen. -/
def firstSeenDedup (l : List String) : List String :=
  l.foldl (fun acc t => if t ∈ acc then acc else acc ++ [t]) []

/-- Lookup in an insertion-ordered association list (a Python `dict`). -/
def alGet {α : Type} (m : List (String × α)) (k : String) : Option α :=
  (m.find? (fun p => p.1 = k)).map (fun p => p.2)

/-- Python `d[k] = v`: replace the value in place when the key is present,
append the binding otherwise. -/
def alSet {α : Type} (m : List (String × α)) (k : String) (v : α) :
    List (String × α) :=
  if (m.find? (fun p => p.1 = k)).isSome then
    m.map (fun p => if p.1 = k then (k, v) else p)
  else m ++ [(k, v)]

/-- Python `d1.update(d2)`: keys of `d1` keep their position with values
overridden by `d2` where shared; keys only in `d2` are appended in order. -/
def dictUpdate (d1 d2 : List (String × String)) : List (String × String) :=
  d1.map (fun p => (p.1, ((alGet d2 p.1).getD p.2))) ++
    d2.filter (fun p => (alGet d1 p.1).isNone)

/-! ### Data model (`src/models.py`, `src/policy_schema.py`)

The owned `documents` and `policy_sections` lists of `Product` are not
modelled: in the source they are mutated only through
`Product.merge_documents` / `Product.extend_policy_sections` on transient
per-page candidate objects, and no claim concerns their contents. -/

/-- Model of `models.Insurer` (the `metadata`/`raw_record` mappings are carried
verbatim). -/
structure Insurer where
  insurer_id : String
  name : String
  category : String
  source_url : String
  website_url : String := ""
  metadata : List (String × String) := []
  deriving DecidableEq

/-- Model of `models.ProductDocument`.  `local_path` is the optional local artifact
reference (a filesystem path, modelled as a string). -/
structure ProductDocument where
  document_id : String
  insurer_id : String
  document_type : String
  source_url : String
  product_id : Option String := none
  local_path : Option String := none
  content_hash : Option String := none
  extracted_text : String := ""
  metadata : List (String × String) := []
  deriving DecidableEq

/-- Model of `models.PolicySectionExtraction`.  The confidence float takes only the
discrete values `1`, `4/5`, `0`, modelled exactly in `Rat`. -/
structure PolicySectionExtraction where
  product_id : String
  category : String
  schema_version : String
  section_name : String
  content : String
  confidence : Rat
  source_document_id : Option String := none
  deriving DecidableEq

/-- Model of `models.Product` (without the owned document/section lists, see above). -/
structure Product where
  product_id : String
  insurer_id : String
  name : String
  category : String
  product_url : String
  description : String := ""
  discovered_from_url : String := ""
  tags : List String := []
  metadata : List (String × String) := []
  deriving DecidableEq

/-- Model of `models.ProductCrawlResult`.  `stats` is a Python dict from counter
name to count, modelled as an association list. -/
structure ProductCrawlResult where
  insurer : Insurer
  products : List Product
  documents : List ProductDocument
  stats : List (String × Nat) := []
  deriving DecidableEq

/-- Model of `policy_schema.PolicySectionDefinition`. -/
structure PolicySectionDefinition where
  name : String
  aliases : List String := []
  required : Bool := true
  deriving DecidableEq

/-- Model of `policy_schema.PolicySchema`. -/
structure PolicySchema where
  category : String
  version : String
  sections : List PolicySectionDefinition
  deriving DecidableEq

/-- Model of `policy_schema.POLICY_SCHEMAS`: the static registry, transcribed from
the source. -/
def POLICY_SCHEMAS : List (String × PolicySchema) :=
  [ ("health",
     { category := "health", version := "1.0",
       sections :=
        [ { name := "Key Features", aliases := ["key features", "key highlights"] },
          { name := "Eligibility", aliases := ["eligibility", "who can buy"] },
          { name := "Coverage",
            aliases := ["coverage", "benefits covered", "inclusions", "sum insured"] },
          { name := "Exclusions", aliases := ["exclusions", "what is not covered"] },
          { name := "Waiting Periods", aliases := ["waiting periods", "waiting period"] },
          { name := "Premium Illustration", aliases := ["premium", "premium chart"] },
          { name := "Renewal", aliases := ["renewal"] },
          { name := "Claims", aliases := ["claim process", "claims"] } ] }),
    ("motor",
     { category := "motor", version := "1.0",
       sections :=
        [ { name := "Key Features", aliases := ["key features", "highlights"] },
          { name := "Eligibility", aliases := ["eligibility", "who can buy"] },
          { name := "Coverage",
            aliases := ["coverage", "benefits", "own damage cover", "liability cover"] },
          { name := "Add-ons", aliases := ["add-ons", "optional covers"] },
          { name := "Exclusions", aliases := ["exclusions"] },
          { name := "Claims", aliases := ["claims", "claim process"] },
          { name := "Premium Illustration", aliases := ["premium"] } ] }),
    ("life_term",
     { category := "life_term", version := "1.0",
       sections :=
        [ { name := "Key Features", aliases := ["key features", "highlights"] },
          { name := "Eligibility", aliases := ["eligibility", "entry age"] },
          { name := "Plan Options",
            aliases := ["plan options", "plan variants", "coverage options"] },
          { name := "Benefits",
            aliases := ["benefits", "death benefit", "maturity benefit", "survival benefit"] },
          { name := "Exclusions", aliases := ["exclusions", "suicide clause"] },
          { name := "Premium Payment", aliases := ["premium payment", "premium"] },
          { name := "Policy Term", aliases := ["policy term", "term options"] },
          { name := "Claims", aliases := ["claims", "claim process"] } ] }),
    ("life_savings",
     { category := "life_savings", version := "1.0",
       sections :=
        [ { name := "Key Features", aliases := ["key features", "highlights"] },
          { name := "Eligibility", aliases := ["eligibility", "entry age"] },
          { name := "Plan Options",
            aliases := ["plan options", "policy options", "policy variants"] },
          { name := "Benefits",
            aliases := ["benefits", "maturity benefit", "survival benefit", "death benefit"] },
          { name := "Bonus", aliases := ["bonus", "participation in profits"] },
          { name := "Premium Payment", aliases := ["premium payment"] },
          { name := "Surrender Value", aliases := ["surrender value", "loan"] },
          { name := "Claims", aliases := ["claims"] } ] }) ]

/-- Model of `policy_schema.get_schema`: registry lookup by category. -/
def get_schema (category : String) : Option PolicySchema :=
  alGet POLICY_SCHEMAS category

/-! ### Policy text segmenter and schema matcher
(`document_processing.PolicyNormalizer`) -/

/-- Membership in the character class of `PolicyNormalizer.SECTION_HEADING_RE`
after its initial capital: letters, digits, whitespace, `/`, `&`, `,`, `-`. -/
def headingBodyChar (c : Char) : Bool :=
  c.isAlpha || c.isDigit || isWs c || c = '/' || c = '&' || c = ',' || c = '-'

/-- Full-string match of `SECTION_HEADING_RE`
(`^[A-Z][A-Za-z0-9\s/&,-]{3,}$`): an uppercase letter followed by at least
three characters of the class above. -/
def headingShaped (l : List Char) : Bool :=
  match l with
  | [] => false
  | c :: rest => c.isUpper && decide (3 ≤ rest.length) && rest.all headingBodyChar

/-- Python `str.isupper` for ASCII text: at least one uppercase letter and
no lowercase letter. -/
def pyIsUpper (l : List Char) : Bool :=
  l.any Char.isUpper && !(l.any Char.isLower)

/-- Model of `PolicyNormalizer._looks_like_heading`, branch for branch:
strip whitespace and trailing colons; reject empty, overlong (over 120
characters) or overly wordy (over 12 words) lines; accept all-uppercase
lines, lines with uppercase but no lowercase, lines with at least as many
uppercase as lowercase characters, and heading-shaped lines. -/
def _looks_like_heading (line : String) : Bool :=
  let stripped := trimWs (rstripColonL (trimWs line.data))
  if stripped.isEmpty then false
  else if decide (120 < stripped.length) then false
  else if decide (12 < (wordsL stripped).length) then false
  else if pyIsUpper stripped then true
  else
    let uppercase := (stripped.filter Char.isUpper).length
    let lowercase := (stripped.filter Char.isLower).length
    if decide (uppercase ≠ 0) && decide (lowercase = 0) then true
    else if decide (lowercase ≤ uppercase) then true
    else headingShaped stripped

/-- The body of a flushed section: Python `"\n".join(buffer).strip()`. -/
def joinedBody (buffer : List String) : String := pyStrip (joinNl buffer)

/-- Loop of `PolicyNormalizer._split_sections` over the cleaned lines,
carrying the current title, the buffered body lines, and the emitted
sections: empty lines are skipped; a heading flushes the buffer (when
non-empty) under the current title and starts a new section titled by the
heading with trailing colons stripped; other lines are buffered; at end of
input a non-empty buffer is flushed. -/
def sectionsGo : List String → String → List String → List (String × String) →
    List (String × String)
  | [], title, buffer, acc =>
    if buffer.isEmpty then acc else acc ++ [(title, joinedBody buffer)]
  | line :: rest, title, buffer, acc =>
    if line = "" then sectionsGo rest title buffer acc
    else if _looks_like_heading line then
      sectionsGo rest (String.mk (trimWs (rstripColonL line.data))) []
        (if buffer.isEmpty then acc else acc ++ [(title, joinedBody buffer)])
    else sectionsGo rest title (buffer ++ [line]) acc

/-- Model of `PolicyNormalizer._split_sections`: clean each line of the text,
then segment into titled sections, starting from the implicit
"Overview" title. -/
def _split_sections (text : String) : List (String × String) :=
  sectionsGo ((splitLines text).map clean_text) "Overview" [] []

/-- Bodies still to be produced by `sectionsGo` from the remaining lines,
given the currently buffered body lines (the section titles projected
away). -/
def chunksOf (buffer : List String) : List String → List String
  | [] => if buffer.isEmpty then [] else [joinedBody buffer]
  | l :: ls =>
    if l = "" then chunksOf buffer ls
    else if _looks_like_heading l then
      (if buffer.isEmpty then chunksOf [] ls
       else joinedBody buffer :: chunksOf [] ls)
    else chunksOf (buffer ++ [l]) ls

/-- Model of `PolicyNormalizer._match_section`: scan the segmented sections in
order; a title equal (case-insensitively) to the canonical name returns
that section's content with confidence `1`; otherwise a title containing
any alias as a case-insensitive substring returns the content with
confidence `4/5`; if no section matches, return empty content with
confidence `0`. -/
def _match_section (definition : PolicySectionDefinition) :
    List (String × String) → String × Rat
  | [] => ("", 0)
  | (title, content) :: rest =>
    let normalized_title := pyLower title
    if normalized_title = pyLower definition.name then (content, 1)
    else if definition.aliases.any
        (fun a => strContains normalized_title (pyLower a)) then
      (content, 4/5)
    else _match_section definition rest

/-- Model of `PolicyNormalizer.normalize`: with empty extracted text or no
schema for the product's category, produce nothing; otherwise produce one
extraction per canonical section definition of the schema, in schema
order. -/
def normalize (schemas : List (String × PolicySchema)) (product : Product)
    (document : ProductDocument) : List PolicySectionExtraction :=
  let text := document.extracted_text
  if text = "" then []
  else
    match alGet schemas product.category with
    | none => []
    | some schema =>
      let sections := _split_sections text
      schema.sections.map (fun definition =>
        { product_id := product.product_id
          category := product.category
          schema_version := schema.version
          section_name := definition.name
          content := (_match_section definition sections).1
          confidence := (_match_section definition sections).2
          source_document_id := some document.document_id })

/-! ### Website crawler (`src/product_crawler.py`)

HTML fetching and parsing are external effects.  They are abstracted by a
`fetch` oracle mapping a URL to `none` (failed fetch or non-HTML content)
or to the parsed page outcome: the product candidates of
`_extract_products`, the document candidates of `_extract_documents`, and
the same-domain links of `_extract_links`.  Document download and text
extraction (`DocumentProcessor.process_document`) are abstracted by a
`proc` oracle.  URL parsing inside `utils.ensure_url_has_scheme` is
abstracted by a `parse` oracle for non-empty URLs; the Python function
returns empty input unchanged. -/

/-- Model of `product_crawler.ProductCrawlerConfig` (crawl-relevant fields). -/
structure ProductCrawlerConfig where
  max_pages_per_insurer : Nat := 120
  max_depth : Nat := 3
  deriving DecidableEq

/-- Model of `product_crawler.CrawlTask`. -/
structure CrawlTask where
  url : String
  depth : Nat
  deriving DecidableEq

/-- Outcome of fetching and parsing one page, produced by the `fetch`
oracle. -/
structure Page where
  products : List Product
  documents : List ProductDocument
  links : List String
  deriving DecidableEq

/-- Model of `utils.ensure_url_has_scheme`: empty URLs are returned
unchanged; the scheme completion for non-empty URLs is the `parse`
oracle. -/
def ensure_url_has_scheme (parse : String → String) (url : String) : String :=
  if url = "" then url else parse url

/-- Insurer-local mutable state of `crawl_insurer`: the frontier queue, the
visited set, the product and document accumulators keyed by derived id,
and the three stat counters (the Python `stats` dict holds exactly these
three keys throughout the loop).  `fetched_trace` is a ghost field
recording, in order, the URL and depth of every `_fetch_html` call; no
other field depends on it. -/
structure CrawlState where
  queue : List CrawlTask
  visited : List String
  products : List (String × Product)
  documents : List (String × ProductDocument)
  pages_visited : Nat
  pages_skipped : Nat
  documents_found : Nat
  fetched_trace : List (String × Nat)
  deriving DecidableEq

/-- Merge of a same-id product candidate into the existing accumulator
entry (`crawl_insurer` loop body): metadata dict update, tag union through
`iter_unique`, and the existing description kept unless empty. -/
def mergeProduct (existing product : Product) : Product :=
  { existing with
      metadata := dictUpdate existing.metadata product.metadata
      tags := iter_unique (existing.tags ++ product.tags)
      description :=
        if existing.description ≠ "" then existing.description
        else product.description }

/-- One step of the page-product accumulation loop of `crawl_insurer`:
merge into the existing entry when the id is already known, otherwise
insert the candidate under its id. -/
def mergeProductInto (m : List (String × Product)) (product : Product) :
    List (String × Product) :=
  match alGet m product.product_id with
  | some existing => alSet m product.product_id (mergeProduct existing product)
  | none => alSet m product.product_id product

/-- Cross-page document merge in `_associate_documents`: metadata dict
update, and the first non-empty local path and extracted text kept. -/
def mergeDocument (existing processed : ProductDocument) : ProductDocument :=
  { existing with
      metadata := dictUpdate existing.metadata processed.metadata
      local_path :=
        match existing.local_path with
        | some p => some p
        | none => processed.local_path
      extracted_text :=
        if existing.extracted_text ≠ "" then existing.extracted_text
        else processed.extracted_text }

/-- Model of `InsurerProductCrawler._match_document_to_product`: with no
candidates, no match; with a non-empty lower-cased anchor text, the first
candidate whose lower-cased name occurs in it; failing that, the sole
candidate when there is exactly one. -/
def _match_document_to_product (document : ProductDocument)
    (products : List Product) : Option Product :=
  if products.isEmpty then none
  else
    let anchor_text := pyLower ((alGet document.metadata "anchor_text").getD "")
    let textual :=
      if anchor_text ≠ "" then
        products.find? (fun product => strContains anchor_text (pyLower product.name))
      else none
    match textual with
    | some product => some product
    | none => if products.length = 1 then products.head? else none

/-- Body of the document loop in `_associate_documents` for one discovered
document: process it, set its `product_id` on a successful match, and
insert it into the insurer-wide document map, merging when its id is
already present.  The attachment of the processed document and of its
policy-section extractions onto the matched transient product object is
not modelled (see the data-model note). -/
def associateOne (proc : ProductDocument → ProductDocument)
    (candidates : List Product) (st : CrawlState) (document : ProductDocument) :
    CrawlState :=
  let processed := proc document
  let processed :=
    match _match_document_to_product processed candidates with
    | some product => { processed with product_id := some product.product_id }
    | none => processed
  { st with
      documents :=
        match alGet st.documents processed.document_id with
        | some existing =>
          alSet st.documents processed.document_id (mergeDocument existing processed)
        | none => st.documents ++ [(processed.document_id, processed)] }

/-- Model of `InsurerProductCrawler._associate_documents`: the candidate
set is the page products deduplicated by id (first-occurrence order,
last-occurrence value, as the Python dict comprehension builds it),
falling back to all products known for the insurer when the page yielded
none; each page document is then processed and merged into the
insurer-wide document map. -/
def associateDocuments (proc : ProductDocument → ProductDocument)
    (page_products : List Product) (page_documents : List ProductDocument)
    (st : CrawlState) : CrawlState :=
  let processed_products :=
    page_products.foldl (fun m product => alSet m product.product_id product) []
  let processed_products :=
    if processed_products.isEmpty then st.products else processed_products
  page_documents.foldl (associateOne proc (processed_products.map (fun p => p.2))) st

/-- Processing of one dequeued crawl task (the body of the `crawl_insurer`
loop after the pop): skip already-visited URLs; mark the URL visited;
count a skip for tasks beyond the depth budget; otherwise fetch (recorded
in the ghost trace), count a skip on fetch failure, and on success count
the visit, accumulate page products, count discovered documents, associate
them, and enqueue unvisited same-domain links one level deeper. -/
def processTask (cfg : ProductCrawlerConfig) (fetch : String → Option Page)
    (proc : ProductDocument → ProductDocument) (task : CrawlTask)
    (st : CrawlState) : CrawlState :=
  if st.visited.contains task.url then st
  else
    let st := { st with visited := task.url :: st.visited }
    if cfg.max_depth < task.depth then
      { st with pages_skipped := st.pages_skipped + 1 }
    else
      let st := { st with fetched_trace := st.fetched_trace ++ [(task.url, task.depth)] }
      match fetch task.url with
      | none => { st with pages_skipped := st.pages_skipped + 1 }
      | some page =>
        let st := { st with pages_visited := st.pages_visited + 1 }
        let st := { st with products := page.products.foldl mergeProductInto st.products }
        let st := { st with documents_found := st.documents_found + page.documents.length }
        let st := associateDocuments proc page.products page.documents st
        { st with
            queue := st.queue ++
              ((page.links.filter (fun l => !st.visited.contains l)).map
                (fun l => CrawlTask.mk l (task.depth + 1))) }

/-- The `crawl_insurer` while loop, driven by explicit fuel: while the
queue is non-empty and the visit budget is not exhausted, pop the front
task and process it.  Every real execution is `crawlLoop fuel` for any
sufficiently large fuel; the invariants proved below hold for every
fuel. -/
def crawlLoop (cfg : ProductCrawlerConfig) (fetch : String → Option Page)
    (proc : ProductDocument → ProductDocument) : Nat → CrawlState → CrawlState
  | 0, st => st
  | Nat.succ fuel, st =>
    match st.queue with
    | [] => st
    | task :: rest =>
      if cfg.max_pages_per_insurer ≤ st.pages_visited then st
      else crawlLoop cfg fetch proc fuel (processTask cfg fetch proc task { st with queue := rest })

/-- The queue-extension tail of a successful page visit (the last
statement of the `crawl_insurer` loop body): append the unvisited
same-domain links one level deeper. -/
def finishPage (task : CrawlTask) (page : Page) (stA : CrawlState) : CrawlState :=
  { stA with queue := stA.queue ++
      ((page.links.filter (fun l => !stA.visited.contains l)).map
        (fun l => CrawlTask.mk l (task.depth + 1))) }

/-- Initial insurer-local state: the frontier seeded with the root URL at
depth `0`, everything else empty. -/
def initState (root : String) : CrawlState :=
  { queue := [⟨root, 0⟩], visited := [], products := [], documents := [],
    pages_visited := 0, pages_skipped := 0, documents_found := 0,
    fetched_trace := [] }

/-- Model of `InsurerProductCrawler.crawl_insurer`: with no usable root URL
the crawl is skipped and the result carries empty products, documents and
an empty stats dict; otherwise the loop runs from the seeded state and the
result collects the accumulator values and the three counters. -/
def crawl_insurer (parse : String → String) (fetch : String → Option Page)
    (proc : ProductDocument → ProductDocument) (cfg : ProductCrawlerConfig)
    (fuel : Nat) (insurer : Insurer) : ProductCrawlResult :=
  let root_url := ensure_url_has_scheme parse insurer.website_url
  if root_url = "" then
    { insurer := insurer, products := [], documents := [], stats := [] }
  else
    let st := crawlLoop cfg fetch proc fuel (initState root_url)
    { insurer := insurer
      products := st.products.map (fun p => p.2)
      documents := st.documents.map (fun p => p.2)
      stats := [("pages_visited", st.pages_visited),
                ("pages_skipped", st.pages_skipped),
                ("documents_found", st.documents_found)] }

/-- Shape of a cleaned non-empty line: non-empty with non-whitespace first
and last characters (what `clean_text` guarantees for non-empty output). -/
def goodL (l : List Char) : Prop :=
  l ≠ [] ∧ (∀ c, l.head? = some c → isWs c = false) ∧
    (∀ c, l.getLast? = some c → isWs c = false)

/-! ### Matching predicates and concrete fixtures -/

/-- Exact case-insensitive match of a segmented section title against a
definition's canonical name (the first test of `_match_section`). -/
def sectionMatchesExact (definition : PolicySectionDefinition) (s : String × String) : Bool :=
  decide (pyLower s.1 = pyLower definition.name)

/-- Alias substring match of a segmented section title (the second test of
`_match_section`). -/
def sectionMatchesAlias (definition : PolicySectionDefinition) (s : String × String) : Bool :=
  definition.aliases.any (fun a => strContains (pyLower s.1) (pyLower a))

/-- Whether a segmented section matches a definition at all. -/
def sectionMatches (definition : PolicySectionDefinition) (s : String × String) : Bool :=
  sectionMatchesExact definition s || sectionMatchesAlias definition s

/-- The health schema's Eligibility section definition, as in the source
registry. -/
def eligibilityDefinition : PolicySectionDefinition :=
  { name := "Eligibility", aliases := ["eligibility", "who can buy"] }

/-- Segmented sections in which an alias-only match ("Eligibility
Criteria") precedes an exact title match ("Eligibility"). -/
def aliasBeforeExactSections : List (String × String) :=
  [("Eligibility Criteria", "A"), ("Eligibility", "B")]

/-- A concrete health product as the extractor would build it. -/
def sampleHealthProduct : Product :=
  { product_id := "acme-health-family-health-plan", insurer_id := "acme-health",
    name := "Family Health Plan", category := "health",
    product_url := "https://acme.example/fhp" }

/-- A concrete policy-wording document with extracted text. -/
def samplePolicyDocument : ProductDocument :=
  { document_id := "acme-health-fhp-policy-wording", insurer_id := "acme-health",
    document_type := "policy_wording", source_url := "https://acme.example/fhp.pdf",
    extracted_text := "ELIGIBILITY\nAny adult aged 18-65.\nCOVERAGE\nHospitalisation up to 5 lakh." }

/-- A concrete discovered document whose anchor text names the sample
product. -/
def anchorTextDocument : ProductDocument :=
  { document_id := "acme-health-fhp-policy-wording", insurer_id := "acme-health",
    document_type := "policy_wording", source_url := "https://acme.example/fhp.pdf",
    metadata := [("anchor_text", "Download Family Health Plan Policy Wording"),
                 ("page_url", "https://acme.example/products")] }

/-- An earlier-seen product accumulator entry for merge examples. -/
def mergeProductA : Product :=
  { sampleHealthProduct with
      metadata := [("page_url", "https://acme.example/a"), ("heading_level", "h2")],
      description := "", tags := ["health"] }

/-- A later-seen candidate with the same derived id for merge examples. -/
def mergeProductB : Product :=
  { sampleHealthProduct with
      metadata := [("page_url", "https://acme.example/b")],
      description := "Covers hospitalisation", tags := ["health", "motor"] }

/-- An insurer row with no website URL. -/
def noWebsiteInsurer : Insurer :=
  { insurer_id := "health-acme", name := "Acme", category := "health",
    source_url := "https://irdai.example/table" }

/-- Fetch oracle for which every fetch fails. -/
def emptyFetch : String → Option Page := fun _ => none

/-- Document-processing oracle that performs no enrichment. -/
def idProc : ProductDocument → ProductDocument := fun document => document

/-- URL-parsing oracle that returns non-empty URLs unchanged. -/
def idParse : String → String := fun url => url

/-! ### Association-list lemmas -/

theorem alGet_nil {α : Type} (k : String) : alGet ([] : List (String × α)) k = none := rfl

theorem alGet_cons {α : Type} (k1 : String) (v1 : α) (t : List (String × α)) (k : String) :
    alGet ((k1, v1) :: t) k = if k1 = k then some v1 else alGet t k := by
  by_cases h : k1 = k
  · rw [alGet, List.find?_cons_of_pos _ (by simpa using h)]
    simp [h]
  · rw [alGet, List.find?_cons_of_neg _ (by simpa using h)]
    simp [h, alGet]

theorem alGet_append {α : Type} (a b : List (String × α)) (k : String) :
    alGet (a ++ b) k = (alGet a k).or (alGet b k) := by
  rw [alGet, List.find?_append]
  rcases ha : a.find? (fun p => p.1 = k) with _ | pa <;>
    rcases hb : b.find? (fun p => p.1 = k) with _ | pb <;>
      simp [alGet, ha, hb, Option.or]

theorem alGet_eq_none_iff {α : Type} (m : List (String × α)) (k : String) :
    alGet m k = none ↔ k ∉ m.map Prod.fst := by
  induction m with
  | nil => simp [alGet_nil]
  | cons p t ih =>
    obtain ⟨k1, v1⟩ := p
    rw [alGet_cons]
    by_cases h : k1 = k
    · subst h; simp
    · rw [if_neg h, ih]
      simp only [List.map_cons, List.mem_cons, not_or]
      exact ⟨fun hn => ⟨fun hc => h hc.symm, hn⟩, fun hx => hx.2⟩

theorem alGet_mem {α : Type} {m : List (String × α)} {k : String} {v : α}
    (h : alGet m k = some v) : (k, v) ∈ m := by
  rw [alGet] at h
  obtain ⟨p, hp, hpv⟩ := Option.map_eq_some'.mp h
  have hk := List.find?_some hp
  have hmem := List.mem_of_find?_eq_some hp
  obtain ⟨pk, pv⟩ := p
  simp only [decide_eq_true_eq] at hk
  cases hk
  cases hpv
  exact hmem

theorem alGet_isSome_iff {α : Type} (m : List (String × α)) (k : String) :
    (alGet m k).isSome ↔ k ∈ m.map Prod.fst := by
  cases h : alGet m k with
  | none =>
    have := (alGet_eq_none_iff m k).mp h
    simp [this]
  | some v =>
    simp only [Option.isSome_some, true_iff]
    exact List.mem_map_of_mem Prod.fst (alGet_mem h)

theorem alGet_isSome_eq_find {α : Type} (m : List (String × α)) (k : String) :
    (alGet m k).isSome = (m.find? (fun p => p.1 = k)).isSome := by
  rw [alGet]; cases m.find? (fun p => p.1 = k) <;> rfl

theorem alGet_mapReplace {α : Type} (m : List (String × α)) (k : String) (v : α)
    (h : (alGet m k).isSome) :
    alGet (m.map (fun p => if p.1 = k then (k, v) else p)) k = some v := by
  induction m with
  | nil => simp [alGet_nil] at h
  | cons q t ih =>
    obtain ⟨qk, qv⟩ := q
    by_cases hq : qk = k
    · subst hq; simp [alGet_cons]
    · rw [alGet_cons, if_neg hq] at h
      simp only [List.map_cons]
      rw [show (if (qk, qv).1 = k then (k, v) else (qk, qv)) = (qk, qv) from by simp [hq]]
      rw [alGet_cons, if_neg hq]
      exact ih h

theorem alGet_mapReplace_other {α : Type} (m : List (String × α)) (k k' : String) (v : α)
    (h : k' ≠ k) :
    alGet (m.map (fun p => if p.1 = k then (k, v) else p)) k' = alGet m k' := by
  induction m with
  | nil => simp
  | cons q t ih =>
    obtain ⟨qk, qv⟩ := q
    simp only [List.map_cons]
    by_cases hq : qk = k
    · rw [show (if (qk, qv).1 = k then (k, v) else (qk, qv)) = (k, v) from by simp [hq]]
      rw [alGet_cons, if_neg (fun hc => h hc.symm), alGet_cons, if_neg (hq ▸ fun hc => h hc.symm)]
      exact ih
    · rw [show (if (qk, qv).1 = k then (k, v) else (qk, qv)) = (qk, qv) from by simp [hq]]
      rw [alGet_cons, alGet_cons]
      by_cases hq' : qk = k' <;> simp [hq', ih]

theorem alGet_of_find_none {α : Type} {m : List (String × α)} {k : String}
    (h : ¬(m.find? (fun p => p.1 = k)).isSome = true) : alGet m k = none := by
  rw [alGet]
  cases hf : m.find? (fun p => p.1 = k)
  · rfl
  · rw [hf] at h; simp at h

theorem alGet_alSet_self {α : Type} (m : List (String × α)) (k : String) (v : α) :
    alGet (alSet m k v) k = some v := by
  rw [alSet]
  by_cases h : (m.find? (fun p => p.1 = k)).isSome
  · rw [if_pos h]
    exact alGet_mapReplace m k v (by rw [alGet_isSome_eq_find]; exact h)
  · rw [if_neg h, alGet_append, alGet_of_find_none h, alGet_cons]
    simp [Option.or]

theorem alGet_alSet_other {α : Type} (m : List (String × α)) (k k' : String) (v : α)
    (h : k' ≠ k) : alGet (alSet m k v) k' = alGet m k' := by
  rw [alSet]
  by_cases hs : (m.find? (fun p => p.1 = k)).isSome
  · rw [if_pos hs]
    exact alGet_mapReplace_other m k k' v h
  · rw [if_neg hs, alGet_append, alGet_cons, if_neg (fun hc => h hc.symm)]
    cases alGet m k' <;> simp [alGet_nil, Option.or]

theorem alSet_keys {α : Type} (m : List (String × α)) (k : String) (v : α) :
    (alSet m k v).map Prod.fst =
      if (alGet m k).isSome then m.map Prod.fst else m.map Prod.fst ++ [k] := by
  rw [alSet, alGet_isSome_eq_find]
  by_cases h : (m.find? (fun p => p.1 = k)).isSome
  · rw [if_pos h, if_pos h, List.map_map]
    refine List.map_congr_left ?_
    intro p _
    by_cases hp : p.1 = k
    · simp [Function.comp, hp]
    · simp [Function.comp, hp]
  · rw [if_neg h, if_neg h, List.map_append]
    rfl

theorem alSet_length {α : Type} (m : List (String × α)) (k : String) (v : α) :
    (alSet m k v).length =
      if (alGet m k).isSome then m.length else m.length + 1 := by
  rw [alSet, alGet_isSome_eq_find]
  by_cases h : (m.find? (fun p => p.1 = k)).isSome <;> simp [h]

theorem mem_alSet {α : Type} {m : List (String × α)} {k : String} {v : α} {e : String × α}
    (h : e ∈ alSet m k v) : e = (k, v) ∨ (e ∈ m ∧ e.1 ≠ k) := by
  rw [alSet] at h
  by_cases hs : (m.find? (fun p => p.1 = k)).isSome
  · rw [if_pos hs] at h
    simp only [List.mem_map] at h
    obtain ⟨p, hp, he⟩ := h
    by_cases hpk : p.1 = k
    · left; rw [← he]; simp [hpk]
    · right
      rw [← he]
      simpa [hpk] using hp
  · rw [if_neg hs] at h
    rcases List.mem_append.mp h with h | h
    · right
      refine ⟨h, fun hek => ?_⟩
      have hm : (alGet m k).isSome :=
        (alGet_isSome_iff m k).mpr (hek ▸ List.mem_map_of_mem Prod.fst h)
      rw [alGet_isSome_eq_find] at hm
      exact hs hm
    · left; simpa using h

/-! ### Dict-update lemmas (Python `dict.update` semantics) -/

theorem alGet_mapUpdate (d1 d2 : List (String × String)) (k : String) :
    alGet (d1.map (fun p => (p.1, (alGet d2 p.1).getD p.2))) k
      = (alGet d1 k).map (fun v => (alGet d2 k).getD v) := by
  induction d1 with
  | nil => simp [alGet_nil]
  | cons p t ih =>
    obtain ⟨k1, v1⟩ := p
    by_cases h : k1 = k
    · subst h; simp [alGet_cons]
    · simp [alGet_cons, h, ih]

theorem alGet_filterNotIn (d1 d2 : List (String × String)) (k : String)
    (h : alGet d1 k = none) :
    alGet (d2.filter (fun p => (alGet d1 p.1).isNone)) k = alGet d2 k := by
  induction d2 with
  | nil => simp
  | cons p t ih =>
    obtain ⟨k2, v2⟩ := p
    by_cases hk : k2 = k
    · subst hk
      rw [List.filter_cons, if_pos (by simp [h])]
      simp [alGet_cons]
    · rw [List.filter_cons]
      by_cases hin : (alGet d1 k2).isNone
      · rw [if_pos (by simpa using hin), alGet_cons, if_neg hk, alGet_cons, if_neg hk]
        exact ih
      · rw [if_neg (by simpa using hin), alGet_cons, if_neg hk]
        exact ih

theorem alGet_filterIn (d1 d2 : List (String × String)) (k : String)
    (h : (alGet d1 k).isSome) :
    alGet (d2.filter (fun p => (alGet d1 p.1).isNone)) k = none := by
  induction d2 with
  | nil => simp [alGet_nil]
  | cons p t ih =>
    obtain ⟨k2, v2⟩ := p
    by_cases hk : k2 = k
    · subst hk
      rw [List.filter_cons,
        if_neg (by simp only [Option.isNone_iff_eq_none]
                   exact fun hc => (Option.ne_none_iff_isSome.mpr h) (by simpa using hc))]
      exact ih
    · rw [List.filter_cons]
      by_cases hin : (alGet d1 k2).isNone
      · rw [if_pos (by simpa using hin), alGet_cons, if_neg hk]
        exact ih
      · rw [if_neg (by simpa using hin)]
        exact ih

theorem alGet_dictUpdate_right (d1 d2 : List (String × String)) (k : String)
    (h : (alGet d2 k).isSome) :
    alGet (dictUpdate d1 d2) k = alGet d2 k := by
  rw [dictUpdate, alGet_append, alGet_mapUpdate]
  cases h1 : alGet d1 k with
  | none =>
    rw [alGet_filterNotIn d1 d2 k h1]
    simp [Option.or]
  | some v =>
    obtain ⟨w, hw⟩ := Option.isSome_iff_exists.mp h
    simp [hw, Option.or]

theorem alGet_dictUpdate_left (d1 d2 : List (String × String)) (k : String)
    (h : alGet d2 k = none) :
    alGet (dictUpdate d1 d2) k = alGet d1 k := by
  rw [dictUpdate, alGet_append, alGet_mapUpdate]
  cases h1 : alGet d1 k with
  | none =>
    rw [alGet_filterNotIn d1 d2 k h1, h]
    simp [Option.or]
  | some v => simp [h, h1, Option.or]

theorem alGet_dictUpdate_isSome (d1 d2 : List (String × String)) (k : String) :
    (alGet (dictUpdate d1 d2) k).isSome ↔
      (alGet d1 k).isSome ∨ (alGet d2 k).isSome := by
  cases h2 : alGet d2 k with
  | none => rw [alGet_dictUpdate_left d1 d2 k h2]; simp
  | some v => rw [alGet_dictUpdate_right d1 d2 k (by simp [h2])]; simp [h2]

/-! ### Claim C1: schema matcher confidence -/

/-- C1 (amended): for every policy section definition and segmented
section list, the matcher's row is decided by the first section matching
either exactly or by alias, scanning in order: that section's content with
confidence `1` when the match is exact, with confidence `4/5` when it is
an alias-substring match only; with no matching section at all the row is
empty content with confidence `0`.  (A later exact title match can
therefore be preempted by an earlier alias match.) -/
theorem c1_matcher_first_match_decides (definition : PolicySectionDefinition)
    (sections : List (String × String)) :
    (sections.find? (sectionMatches definition) = none →
      _match_section definition sections = ("", 0)) ∧
    (∀ s, sections.find? (sectionMatches definition) = some s →
      _match_section definition sections =
        (s.2, if sectionMatchesExact definition s then 1 else 4/5)) := by
  induction sections with
  | nil => exact ⟨fun _ => rfl, fun s hs => by simp at hs⟩
  | cons hd tl ih =>
    obtain ⟨title, content⟩ := hd
    by_cases he : pyLower title = pyLower definition.name
    · have hm : sectionMatches definition (title, content) = true := by
        simp [sectionMatches, sectionMatchesExact, he]
      constructor
      · intro hn
        rw [List.find?_cons_of_pos _ hm] at hn
        exact absurd hn (by simp)
      · intro s hs
        rw [List.find?_cons_of_pos _ hm] at hs
        cases hs
        rw [show _match_section definition ((title, content) :: tl)
              = (content, 1) from by rw [_match_section, if_pos he]]
        simp [sectionMatchesExact, he]
    · by_cases ha : definition.aliases.any
          (fun a => strContains (pyLower title) (pyLower a)) = true
      · have hm : sectionMatches definition (title, content) = true := by
          simp [sectionMatches, sectionMatchesAlias, ha]
        constructor
        · intro hn
          rw [List.find?_cons_of_pos _ hm] at hn
          exact absurd hn (by simp)
        · intro s hs
          rw [List.find?_cons_of_pos _ hm] at hs
          cases hs
          rw [show _match_section definition ((title, content) :: tl)
                = (content, 4/5) from by rw [_match_section, if_neg he, if_pos ha]]
          simp [sectionMatchesExact, he]
      · have hm : ¬sectionMatches definition (title, content) = true := by
          simp [sectionMatches, sectionMatchesExact, sectionMatchesAlias, he, ha]
        have hstep : _match_section definition ((title, content) :: tl)
            = _match_section definition tl := by
          rw [_match_section, if_neg he, if_neg ha]
        constructor
        · intro hn
          rw [List.find?_cons_of_neg _ hm] at hn
          rw [hstep]
          exact ih.1 hn
        · intro s hs
          rw [List.find?_cons_of_neg _ hm] at hs
          rw [hstep]
          exact ih.2 s hs

/-- C1 (witness): a section list whose first matching section is an exact
match yields that section's content with confidence `1`. -/
theorem c1_witness :
    _match_section eligibilityDefinition [("intro", "x"), ("ELIGIBILITY", "y")]
      = ("y", 1) := by
  have h := (c1_matcher_first_match_decides eligibilityDefinition
      [("intro", "x"), ("ELIGIBILITY", "y")]).2 ("ELIGIBILITY", "y") rfl
  exact h.trans rfl

/-- C1 (counterexample): in the source the exact-match test runs per
section inside the scan, so a section exactly matching the canonical name
("Eligibility") does not force confidence `1` when an earlier section
("Eligibility Criteria") already matches an alias: the matcher returns the
earlier section's content with confidence `4/5`, refuting the claim's
"exact match anywhere implies confidence 1.0". -/
theorem c1_counterexample :
    sectionMatchesExact eligibilityDefinition ("Eligibility", "B") = true ∧
    ("Eligibility", "B") ∈ aliasBeforeExactSections ∧
    _match_section eligibilityDefinition aliasBeforeExactSections = ("A", 4/5) ∧
    (4/5 : Rat) ≠ 1 := by
  refine ⟨by decide, by decide, rfl, by norm_num⟩

/-! ### Claim C2: normalize produces one row per canonical section -/

/-- C2: when the product's category has a schema in the registry and the
document's extracted text is non-empty, `normalize` produces exactly one
extraction per canonical section definition, in schema order, carrying the
definition's name, the product's id and category, the schema's version and
the source document's id; with a schema lookup miss or empty extracted
text it produces no extractions at all. -/
theorem c2_normalize_fixed_row_set (product : Product) (document : ProductDocument) :
    (∀ schema, alGet POLICY_SCHEMAS product.category = some schema →
        document.extracted_text ≠ "" →
        ((normalize POLICY_SCHEMAS product document).map
            (fun e => e.section_name) = schema.sections.map (fun d => d.name) ∧
          ∀ e ∈ normalize POLICY_SCHEMAS product document,
            e.product_id = product.product_id ∧
            e.category = product.category ∧
            e.schema_version = schema.version ∧
            e.source_document_id = some document.document_id)) ∧
    ((alGet POLICY_SCHEMAS product.category = none ∨ document.extracted_text = "") →
        normalize POLICY_SCHEMAS product document = []) := by
  constructor
  · intro schema hs ht
    have hn : normalize POLICY_SCHEMAS product document
        = (alGet POLICY_SCHEMAS product.category).elim []
            (fun schema => schema.sections.map (fun definition =>
              { product_id := product.product_id
                category := product.category
                schema_version := schema.version
                section_name := definition.name
                content := (_match_section definition (_split_sections document.extracted_text)).1
                confidence := (_match_section definition (_split_sections document.extracted_text)).2
                source_document_id := some document.document_id })) := by
      rw [normalize, if_neg ht]
      cases alGet POLICY_SCHEMAS product.category <;> rfl
    rw [hn, hs]
    constructor
    · rw [Option.elim_some, List.map_map]
      rfl
    · intro e he
      rw [Option.elim_some, List.mem_map] at he
      obtain ⟨d, _, rfl⟩ := he
      exact ⟨rfl, rfl, rfl, rfl⟩
  · intro h
    rcases h with h | h
    · rw [normalize]
      by_cases ht : document.extracted_text = ""
      · rw [if_pos ht]
      · rw [if_neg ht, h]
    · rw [normalize, if_pos h]

/-- C2 (witness): the sample health product and policy document produce
exactly the eight canonical health sections, in schema order. -/
theorem c2_witness :
    (normalize POLICY_SCHEMAS sampleHealthProduct samplePolicyDocument).map
        (fun e => e.section_name) =
      ["Key Features", "Eligibility", "Coverage", "Exclusions", "Waiting Periods",
       "Premium Illustration", "Renewal", "Claims"] := by
  have h := ((c2_normalize_fixed_row_set sampleHealthProduct samplePolicyDocument).1
      _ rfl (by decide)).1
  exact h.trans rfl

/-! ### Claim C9: shared metadata keys take the newer value -/

/-- C9: in both the product merge and the document merge, a metadata key
present in both the existing entry and the newly discovered candidate
takes the candidate's (newer) value; a key present only in the candidate
or only in the existing entry keeps its unique value, so the merged key
set is the union. -/
theorem c9_merge_metadata_later_wins :
    (∀ existing product : Product, ∀ k,
        (alGet product.metadata k).isSome →
        alGet (mergeProduct existing product).metadata k = alGet product.metadata k) ∧
    (∀ existing product : Product, ∀ k,
        alGet product.metadata k = none →
        alGet (mergeProduct existing product).metadata k = alGet existing.metadata k) ∧
    (∀ existing product : Product, ∀ k,
        (alGet (mergeProduct existing product).metadata k).isSome ↔
          (alGet existing.metadata k).isSome ∨ (alGet product.metadata k).isSome) ∧
    (∀ existing processed : ProductDocument, ∀ k,
        (alGet processed.metadata k).isSome →
        alGet (mergeDocument existing processed).metadata k = alGet processed.metadata k) ∧
    (∀ existing processed : ProductDocument, ∀ k,
        alGet processed.metadata k = none →
        alGet (mergeDocument existing processed).metadata k = alGet existing.metadata k) ∧
    (∀ existing processed : ProductDocument, ∀ k,
        (alGet (mergeDocument existing processed).metadata k).isSome ↔
          (alGet existing.metadata k).isSome ∨ (alGet processed.metadata k).isSome) :=
  ⟨fun e p k h => alGet_dictUpdate_right e.metadata p.metadata k h,
   fun e p k h => alGet_dictUpdate_left e.metadata p.metadata k h,
   fun e p k => alGet_dictUpdate_isSome e.metadata p.metadata k,
   fun e p k h => alGet_dictUpdate_right e.metadata p.metadata k h,
   fun e p k h => alGet_dictUpdate_left e.metadata p.metadata k h,
   fun e p k => alGet_dictUpdate_isSome e.metadata p.metadata k⟩

/-- C9 (witness): merging two concrete same-id candidates keeps the newer
`page_url` and the uniquely held `heading_level`. -/
theorem c9_witness :
    alGet (mergeProduct mergeProductA mergeProductB).metadata "page_url"
      = some "https://acme.example/b" ∧
    alGet (mergeProduct mergeProductA mergeProductB).metadata "heading_level"
      = some "h2" := by
  constructor
  · exact (c9_merge_metadata_later_wins.1 mergeProductA mergeProductB "page_url"
      (by decide)).trans rfl
  · exact (c9_merge_metadata_later_wins.2.1 mergeProductA mergeProductB "heading_level"
      rfl).trans rfl

/-! ### String helper lemmas -/

theorem pyLower_eq_empty {s : String} (h : pyLower s = "") : s = "" := by
  apply String.ext
  have hd := congrArg String.data h
  rw [pyLower] at hd
  have : s.data.map Char.toLower = [] := by simpa using hd
  simpa using List.map_eq_nil_iff.mp this

theorem strContains_empty_imp {pat : String} (h : strContains "" pat = true) : pat = "" := by
  rw [strContains, show ("" : String).data = [] from rfl, containsSub] at h
  apply String.ext
  simpa using h

/-! ### Lemmas on the association step -/

theorem associateOne_spec (proc : ProductDocument → ProductDocument)
    (cands : List Product) (st : CrawlState) (doc : ProductDocument) :
    ∃ d' : ProductDocument, d'.document_id = (proc doc).document_id ∧
      (associateOne proc cands st doc).documents =
        (match alGet st.documents ((proc doc).document_id) with
         | some existing =>
            alSet st.documents ((proc doc).document_id) (mergeDocument existing d')
         | none => st.documents ++ [((proc doc).document_id, d')]) := by
  cases hm : _match_document_to_product (proc doc) cands with
  | none =>
    refine ⟨proc doc, rfl, ?_⟩
    simp only [associateOne, hm]
  | some product =>
    refine ⟨{ proc doc with product_id := some product.product_id }, rfl, ?_⟩
    simp only [associateOne, hm]

theorem associateOne_key_present (proc : ProductDocument → ProductDocument)
    (cands : List Product) (st : CrawlState) (doc : ProductDocument) :
    (alGet (associateOne proc cands st doc).documents ((proc doc).document_id)).isSome := by
  obtain ⟨d', _, hdocs⟩ := associateOne_spec proc cands st doc
  rw [hdocs]
  cases h : alGet st.documents ((proc doc).document_id) with
  | none => rw [alGet_append, h, alGet_cons, if_pos rfl]; rfl
  | some existing => rw [alGet_alSet_self]; rfl

theorem associateOne_key_preserved (proc : ProductDocument → ProductDocument)
    (cands : List Product) (st : CrawlState) (doc : ProductDocument) (k : String)
    (h : (alGet st.documents k).isSome) :
    (alGet (associateOne proc cands st doc).documents k).isSome := by
  obtain ⟨d', _, hdocs⟩ := associateOne_spec proc cands st doc
  rw [hdocs]
  cases hg : alGet st.documents ((proc doc).document_id) with
  | none =>
    rw [alGet_append]
    obtain ⟨v, hv⟩ := Option.isSome_iff_exists.mp h
    rw [hv]
    rfl
  | some existing =>
    by_cases hk : k = (proc doc).document_id
    · subst hk; rw [alGet_alSet_self]; rfl
    · rw [alGet_alSet_other _ _ _ _ hk]; exact h

theorem assocFold_key_preserved (proc : ProductDocument → ProductDocument)
    (cands : List Product) (docs : List ProductDocument) (st : CrawlState) (k : String)
    (h : (alGet st.documents k).isSome) :
    (alGet (docs.foldl (associateOne proc cands) st).documents k).isSome := by
  induction docs generalizing st with
  | nil => exact h
  | cons d t ih =>
    rw [List.foldl_cons]
    exact ih (associateOne proc cands st d) (associateOne_key_preserved proc cands st d k h)

theorem assocFold_key_present (proc : ProductDocument → ProductDocument)
    (cands : List Product) (docs : List ProductDocument) (st : CrawlState)
    (doc : ProductDocument) (h : doc ∈ docs) :
    (alGet (docs.foldl (associateOne proc cands) st).documents
      ((proc doc).document_id)).isSome := by
  induction docs generalizing st with
  | nil => simp at h
  | cons d t ih =>
    rw [List.foldl_cons]
    rcases List.mem_cons.mp h with rfl | hmem
    · exact assocFold_key_preserved proc cands t (associateOne proc cands st doc) _
        (associateOne_key_present proc cands st doc)
    · exact ih (associateOne proc cands st d) hmem

/-! ### Claim C5: document-to-product matching and retention -/

/-- C5: for every processed document whose candidate products all carry a
non-empty name (as all extractor-produced candidates do): if the
lower-cased anchor text contains some candidate's lower-cased name, the
match is the first such candidate in scan order; with no textual match and
exactly one candidate, the match is that candidate by elimination;
otherwise there is no match.  Moreover every page document ends up in the
insurer-wide document map under its processed id, and an unmatched
document whose id is new is stored exactly as processed, its `product_id`
untouched by the association step. -/
theorem c5_match_and_retention :
    (∀ (document : ProductDocument) (products : List Product),
        (∀ p ∈ products, p.name ≠ "") →
        ((∀ q, products.find? (fun p =>
              strContains (pyLower ((alGet document.metadata "anchor_text").getD ""))
                (pyLower p.name)) = some q →
            _match_document_to_product document products = some q) ∧
         (products.find? (fun p =>
              strContains (pyLower ((alGet document.metadata "anchor_text").getD ""))
                (pyLower p.name)) = none →
            products.length = 1 →
            _match_document_to_product document products = products.head?) ∧
         (products.find? (fun p =>
              strContains (pyLower ((alGet document.metadata "anchor_text").getD ""))
                (pyLower p.name)) = none →
            products.length ≠ 1 →
            _match_document_to_product document products = none))) ∧
    (∀ (proc : ProductDocument → ProductDocument) (page_products : List Product)
        (docs : List ProductDocument) (st : CrawlState) (document : ProductDocument),
        document ∈ docs →
        (alGet (associateDocuments proc page_products docs st).documents
            ((proc document).document_id)).isSome) ∧
    (∀ (proc : ProductDocument → ProductDocument) (candidates : List Product)
        (st : CrawlState) (document : ProductDocument),
        _match_document_to_product (proc document) candidates = none →
        alGet st.documents ((proc document).document_id) = none →
        (associateOne proc candidates st document).documents
          = st.documents ++ [((proc document).document_id, proc document)]) := by
  refine ⟨?_, ?_, ?_⟩
  · intro document products hn
    by_cases hempty : products.isEmpty
    · rw [List.isEmpty_iff] at hempty
      subst hempty
      refine ⟨fun q hq => by simp at hq, fun _ h1 => by simp at h1, fun _ _ => rfl⟩
    · by_cases ha : pyLower ((alGet document.metadata "anchor_text").getD "") = ""
      · have hfind : products.find? (fun p =>
            strContains (pyLower ((alGet document.metadata "anchor_text").getD ""))
              (pyLower p.name)) = none := by
          rw [List.find?_eq_none]
          intro p hp hc
          rw [ha] at hc
          exact hn p hp (pyLower_eq_empty (strContains_empty_imp (by simpa using hc)))
        refine ⟨fun q hq => ?_, fun _ h1 => ?_, fun _ h1 => ?_⟩
        · rw [hfind] at hq
          exact absurd hq (by simp)
        · simp only [_match_document_to_product]
          rw [if_neg hempty, if_neg (not_not_intro ha), if_pos h1]
        · simp only [_match_document_to_product]
          rw [if_neg hempty, if_neg (not_not_intro ha), if_neg h1]
      · refine ⟨fun q hq => ?_, fun hf h1 => ?_, fun hf h1 => ?_⟩
        · simp only [_match_document_to_product]
          rw [if_neg hempty, if_pos ha, hq]
        · simp only [_match_document_to_product]
          rw [if_neg hempty, if_pos ha, hf, if_pos h1]
        · simp only [_match_document_to_product]
          rw [if_neg hempty, if_pos ha, hf, if_neg h1]
  · intro proc page_products docs st document hmem
    rw [associateDocuments]
    exact assocFold_key_present proc _ docs st document hmem
  · intro proc candidates st document hm hnone
    simp only [associateOne, hm, hnone]

/-- C5 (witness): a document whose anchor text contains the sample
product's name is matched to it. -/
theorem c5_witness :
    _match_document_to_product anchorTextDocument [sampleHealthProduct]
      = some sampleHealthProduct := by
  have h := ((c5_match_and_retention.1 anchorTextDocument [sampleHealthProduct]
      (by decide)).1) sampleHealthProduct rfl
  exact h

/-! ### Crawl-state infrastructure lemmas -/

theorem associateOne_fields (proc : ProductDocument → ProductDocument)
    (cands : List Product) (st : CrawlState) (doc : ProductDocument) :
    (associateOne proc cands st doc).queue = st.queue ∧
    (associateOne proc cands st doc).visited = st.visited ∧
    (associateOne proc cands st doc).products = st.products ∧
    (associateOne proc cands st doc).pages_visited = st.pages_visited ∧
    (associateOne proc cands st doc).pages_skipped = st.pages_skipped ∧
    (associateOne proc cands st doc).documents_found = st.documents_found ∧
    (associateOne proc cands st doc).fetched_trace = st.fetched_trace :=
  ⟨rfl, rfl, rfl, rfl, rfl, rfl, rfl⟩

theorem assocFold_fields (proc : ProductDocument → ProductDocument)
    (cands : List Product) (docs : List ProductDocument) : ∀ st : CrawlState,
    (docs.foldl (associateOne proc cands) st).queue = st.queue ∧
    (docs.foldl (associateOne proc cands) st).visited = st.visited ∧
    (docs.foldl (associateOne proc cands) st).products = st.products ∧
    (docs.foldl (associateOne proc cands) st).pages_visited = st.pages_visited ∧
    (docs.foldl (associateOne proc cands) st).pages_skipped = st.pages_skipped ∧
    (docs.foldl (associateOne proc cands) st).documents_found = st.documents_found ∧
    (docs.foldl (associateOne proc cands) st).fetched_trace = st.fetched_trace := by
  induction docs with
  | nil => exact fun st => ⟨rfl, rfl, rfl, rfl, rfl, rfl, rfl⟩
  | cons d t ih =>
    intro st
    rw [List.foldl_cons]
    exact ih (associateOne proc cands st d)

theorem associateDocuments_eq (proc : ProductDocument → ProductDocument)
    (page_products : List Product) (docs : List ProductDocument) (st : CrawlState) :
    associateDocuments proc page_products docs st =
      docs.foldl (associateOne proc
        ((if (page_products.foldl
                (fun m product => alSet m product.product_id product) []).isEmpty
          then st.products
          else page_products.foldl
                (fun m product => alSet m product.product_id product) []).map
          (fun p => p.2))) st := rfl

theorem associateDocuments_fields (proc : ProductDocument → ProductDocument)
    (page_products : List Product) (docs : List ProductDocument) (st : CrawlState) :
    (associateDocuments proc page_products docs st).queue = st.queue ∧
    (associateDocuments proc page_products docs st).visited = st.visited ∧
    (associateDocuments proc page_products docs st).products = st.products ∧
    (associateDocuments proc page_products docs st).pages_visited = st.pages_visited ∧
    (associateDocuments proc page_products docs st).pages_skipped = st.pages_skipped ∧
    (associateDocuments proc page_products docs st).documents_found = st.documents_found ∧
    (associateDocuments proc page_products docs st).fetched_trace = st.fetched_trace := by
  rw [associateDocuments_eq]
  exact assocFold_fields proc _ docs st

theorem finishPage_fields (task : CrawlTask) (page : Page) (stA : CrawlState) :
    (finishPage task page stA).visited = stA.visited ∧
    (finishPage task page stA).products = stA.products ∧
    (finishPage task page stA).documents = stA.documents ∧
    (finishPage task page stA).pages_visited = stA.pages_visited ∧
    (finishPage task page stA).pages_skipped = stA.pages_skipped ∧
    (finishPage task page stA).documents_found = stA.documents_found ∧
    (finishPage task page stA).fetched_trace = stA.fetched_trace :=
  ⟨rfl, rfl, rfl, rfl, rfl, rfl, rfl⟩

theorem associateOne_docs_length_le (proc : ProductDocument → ProductDocument)
    (cands : List Product) (st : CrawlState) (doc : ProductDocument) :
    (associateOne proc cands st doc).documents.length ≤ st.documents.length + 1 := by
  obtain ⟨d', _, hdocs⟩ := associateOne_spec proc cands st doc
  rw [hdocs]
  cases h : alGet st.documents ((proc doc).document_id) with
  | none => simp
  | some existing =>
    rw [alSet_length, if_pos (by simp [h])]
    exact Nat.le_succ _

theorem associateOne_docs_length_merge (proc : ProductDocument → ProductDocument)
    (cands : List Product) (st : CrawlState) (doc : ProductDocument)
    (h : (alGet st.documents ((proc doc).document_id)).isSome) :
    (associateOne proc cands st doc).documents.length = st.documents.length := by
  obtain ⟨d', _, hdocs⟩ := associateOne_spec proc cands st doc
  rw [hdocs]
  obtain ⟨existing, he⟩ := Option.isSome_iff_exists.mp h
  rw [he, alSet_length, if_pos (by simp [he])]

theorem assocFold_docs_length_le (proc : ProductDocument → ProductDocument)
    (cands : List Product) (docs : List ProductDocument) : ∀ st : CrawlState,
    (docs.foldl (associateOne proc cands) st).documents.length ≤
      st.documents.length + docs.length := by
  induction docs with
  | nil => exact fun st => Nat.le_refl _
  | cons d t ih =>
    intro st
    rw [List.foldl_cons]
    calc (t.foldl (associateOne proc cands) (associateOne proc cands st d)).documents.length
        ≤ (associateOne proc cands st d).documents.length + t.length := ih _
      _ ≤ (st.documents.length + 1) + t.length :=
          Nat.add_le_add_right (associateOne_docs_length_le proc cands st d) _
      _ = st.documents.length + (d :: t).length := by
          simp [List.length_cons, Nat.add_assoc, Nat.add_comm 1]

theorem assocFold_docs_length_strict (proc : ProductDocument → ProductDocument)
    (cands : List Product) (docs : List ProductDocument) :
    ∀ st : CrawlState, ∀ doc ∈ docs,
    (alGet st.documents ((proc doc).document_id)).isSome →
    (docs.foldl (associateOne proc cands) st).documents.length + 1 ≤
      st.documents.length + docs.length := by
  induction docs with
  | nil => intro st doc h; simp at h
  | cons d t ih =>
    intro st doc hmem hkey
    rw [List.foldl_cons]
    rcases List.mem_cons.mp hmem with rfl | hmem'
    · calc (t.foldl (associateOne proc cands) (associateOne proc cands st doc)).documents.length + 1
          ≤ ((associateOne proc cands st doc).documents.length + t.length) + 1 :=
            Nat.add_le_add_right (assocFold_docs_length_le proc cands t _) 1
        _ = (st.documents.length + t.length) + 1 := by
            rw [associateOne_docs_length_merge proc cands st doc hkey]
        _ = st.documents.length + (doc :: t).length := by
            simp [List.length_cons, Nat.add_assoc]
    · calc (t.foldl (associateOne proc cands) (associateOne proc cands st d)).documents.length + 1
          ≤ (associateOne proc cands st d).documents.length + t.length :=
            ih (associateOne proc cands st d) doc hmem'
              (associateOne_key_preserved proc cands st d _ hkey)
        _ ≤ (st.documents.length + 1) + t.length :=
            Nat.add_le_add_right (associateOne_docs_length_le proc cands st d) _
        _ = st.documents.length + (d :: t).length := by
            simp [List.length_cons, Nat.add_assoc, Nat.add_comm 1]

theorem crawlLoop_nil (cfg : ProductCrawlerConfig) (fetch : String → Option Page)
    (proc : ProductDocument → ProductDocument) (n : Nat) (st : CrawlState)
    (h : st.queue = []) : crawlLoop cfg fetch proc (n + 1) st = st := by
  rw [crawlLoop, h]

theorem crawlLoop_cons (cfg : ProductCrawlerConfig) (fetch : String → Option Page)
    (proc : ProductDocument → ProductDocument) (n : Nat) (task : CrawlTask)
    (rest : List CrawlTask) (st : CrawlState) (h : st.queue = task :: rest) :
    crawlLoop cfg fetch proc (n + 1) st =
      if cfg.max_pages_per_insurer ≤ st.pages_visited then st
      else crawlLoop cfg fetch proc n
        (processTask cfg fetch proc task { st with queue := rest }) := by
  rw [crawlLoop, h]

/-- Generic fuel-indexed invariant rule for the crawl loop: any property of
the state that ignores the queue and is preserved by `processTask` under
the visit budget holds at every fuel. -/
theorem crawlLoop_inv (cfg : ProductCrawlerConfig) (fetch : String → Option Page)
    (proc : ProductDocument → ProductDocument) (P : CrawlState → Prop)
    (hq : ∀ st q, P st → P { st with queue := q })
    (hstep : ∀ task st, st.pages_visited < cfg.max_pages_per_insurer → P st →
        P (processTask cfg fetch proc task st)) :
    ∀ fuel st, P st → P (crawlLoop cfg fetch proc fuel st) := by
  intro fuel
  induction fuel with
  | zero => intro st h; exact h
  | succ n ih =>
    intro st h
    cases hqe : st.queue with
    | nil => rw [crawlLoop_nil cfg fetch proc n st hqe]; exact h
    | cons task rest =>
      rw [crawlLoop_cons cfg fetch proc n task rest st hqe]
      by_cases hb : cfg.max_pages_per_insurer ≤ st.pages_visited
      · rw [if_pos hb]; exact h
      · rw [if_neg hb]
        exact ih _ (hstep task { st with queue := rest }
          (Nat.lt_of_not_le hb) (hq st rest h))

theorem contains_false_not_mem {l : List String} {u : String}
    (h : l.contains u = false) : u ∉ l := by
  intro hm
  have h2 : List.elem u l = false := h
  have := List.elem_iff.mpr hm
  rw [h2] at this
  exact Bool.noConfusion this

/-- Case analysis of one dequeued task: already-visited no-op, depth skip,
fetch-failure skip, or full page processing. -/
theorem processTask_cases (cfg : ProductCrawlerConfig) (fetch : String → Option Page)
    (proc : ProductDocument → ProductDocument) (task : CrawlTask) (st : CrawlState) :
    (st.visited.contains task.url = true ∧ processTask cfg fetch proc task st = st) ∨
    (st.visited.contains task.url = false ∧ cfg.max_depth < task.depth ∧
      processTask cfg fetch proc task st =
        { st with visited := task.url :: st.visited,
                  pages_skipped := st.pages_skipped + 1 }) ∨
    (st.visited.contains task.url = false ∧ task.depth ≤ cfg.max_depth ∧
      fetch task.url = none ∧
      processTask cfg fetch proc task st =
        { st with visited := task.url :: st.visited,
                  fetched_trace := st.fetched_trace ++ [(task.url, task.depth)],
                  pages_skipped := st.pages_skipped + 1 }) ∨
    (∃ page, st.visited.contains task.url = false ∧ task.depth ≤ cfg.max_depth ∧
      fetch task.url = some page ∧
      processTask cfg fetch proc task st =
        finishPage task page
          (associateDocuments proc page.products page.documents
            { st with visited := task.url :: st.visited,
                      fetched_trace := st.fetched_trace ++ [(task.url, task.depth)],
                      pages_visited := st.pages_visited + 1,
                      products := page.products.foldl mergeProductInto st.products,
                      documents_found := st.documents_found + page.documents.length })) := by
  by_cases hv : st.visited.contains task.url = true
  · left
    refine ⟨hv, ?_⟩
    rw [processTask, if_pos hv]
  · have hv' : st.visited.contains task.url = false := by
      cases h : st.visited.contains task.url
      · rfl
      · exact absurd h hv
    by_cases hd : cfg.max_depth < task.depth
    · right; left
      refine ⟨hv', hd, ?_⟩
      rw [processTask, if_neg hv, if_pos hd]
    · cases hf : fetch task.url with
      | none =>
        right; right; left
        refine ⟨hv', Nat.le_of_not_lt hd, rfl, ?_⟩
        rw [processTask, if_neg hv, if_neg hd]
        simp only [hf]
      | some page =>
        right; right; right
        refine ⟨page, hv', Nat.le_of_not_lt hd, rfl, ?_⟩
        rw [processTask, if_neg hv, if_neg hd]
        simp only [hf]
        rfl

/-! ### Claim C3: crawl budget, no refetch, depth cutoff -/

/-- C3: the pages-visited counter reported in the crawl stats never
exceeds `max_pages_per_insurer`; no URL is fetched twice within one
insurer crawl (the ghost fetch trace has pairwise distinct URLs); every
recorded fetch happened at depth at most `max_depth`; and a dequeued task
at depth `max_depth + 1` with an unvisited URL is never fetched — it only
marks the URL visited and counts one skip. -/
theorem c3_budget_no_refetch_depth_cutoff (cfg : ProductCrawlerConfig)
    (parse : String → String) (fetch : String → Option Page)
    (proc : ProductDocument → ProductDocument) (fuel : Nat) :
    (∀ insurer n,
        alGet (crawl_insurer parse fetch proc cfg fuel insurer).stats "pages_visited"
          = some n → n ≤ cfg.max_pages_per_insurer) ∧
    (∀ root, ((crawlLoop cfg fetch proc fuel (initState root)).fetched_trace.map
        Prod.fst).Nodup) ∧
    (∀ root p, p ∈ (crawlLoop cfg fetch proc fuel (initState root)).fetched_trace →
        p.2 ≤ cfg.max_depth) ∧
    (∀ task st, st.visited.contains task.url = false →
        task.depth = cfg.max_depth + 1 →
        processTask cfg fetch proc task st =
          { st with visited := task.url :: st.visited,
                    pages_skipped := st.pages_skipped + 1 }) := by
  have hinv : ∀ st, st.pages_visited ≤ cfg.max_pages_per_insurer ∧
        (st.fetched_trace.map Prod.fst).Nodup ∧
        (∀ p ∈ st.fetched_trace, p.1 ∈ st.visited) ∧
        (∀ p ∈ st.fetched_trace, p.2 ≤ cfg.max_depth) →
      ∀ fl, (crawlLoop cfg fetch proc fl st).pages_visited ≤ cfg.max_pages_per_insurer ∧
        ((crawlLoop cfg fetch proc fl st).fetched_trace.map Prod.fst).Nodup ∧
        (∀ p ∈ (crawlLoop cfg fetch proc fl st).fetched_trace,
          p.1 ∈ (crawlLoop cfg fetch proc fl st).visited) ∧
        (∀ p ∈ (crawlLoop cfg fetch proc fl st).fetched_trace, p.2 ≤ cfg.max_depth) := by
    intro st h fl
    refine crawlLoop_inv cfg fetch proc
      (fun s => s.pages_visited ≤ cfg.max_pages_per_insurer ∧
        (s.fetched_trace.map Prod.fst).Nodup ∧
        (∀ p ∈ s.fetched_trace, p.1 ∈ s.visited) ∧
        (∀ p ∈ s.fetched_trace, p.2 ≤ cfg.max_depth)) (fun s q hs => hs) ?_ fl st h
    intro task s hlt hs
    obtain ⟨hb, hnd, hvis, hdep⟩ := hs
    rcases processTask_cases cfg fetch proc task s with
      ⟨_, heq⟩ | ⟨hv, _, heq⟩ | ⟨hv, hdle, _, heq⟩ | ⟨page, hv, hdle, _, heq⟩
    · rw [heq]; exact ⟨hb, hnd, hvis, hdep⟩
    · rw [heq]
      exact ⟨hb, hnd, fun p hp => List.mem_cons_of_mem _ (hvis p hp), hdep⟩
    · rw [heq]
      have hnotmem : task.url ∉ s.fetched_trace.map Prod.fst := by
        intro hm
        obtain ⟨p, hp, hpu⟩ := List.mem_map.mp hm
        exact contains_false_not_mem hv (hpu ▸ hvis p hp)
      refine ⟨hb, ?_, ?_, ?_⟩
      · rw [List.map_append, List.nodup_append]
        exact ⟨hnd, List.nodup_singleton _, by simpa [List.disjoint_singleton] using hnotmem⟩
      · intro p hp
        rcases List.mem_append.mp hp with hp | hp
        · exact List.mem_cons_of_mem _ (hvis p hp)
        · rw [List.mem_singleton.mp hp]
          exact List.mem_cons_self _ _
      · intro p hp
        rcases List.mem_append.mp hp with hp | hp
        · exact hdep p hp
        · rw [List.mem_singleton.mp hp]
          exact hdle
    · rw [heq]
      have hfields := associateDocuments_fields proc page.products page.documents
        { s with visited := task.url :: s.visited,
                 fetched_trace := s.fetched_trace ++ [(task.url, task.depth)],
                 pages_visited := s.pages_visited + 1,
                 products := page.products.foldl mergeProductInto s.products,
                 documents_found := s.documents_found + page.documents.length }
      have hfin := finishPage_fields task page
        (associateDocuments proc page.products page.documents
          { s with visited := task.url :: s.visited,
                   fetched_trace := s.fetched_trace ++ [(task.url, task.depth)],
                   pages_visited := s.pages_visited + 1,
                   products := page.products.foldl mergeProductInto s.products,
                   documents_found := s.documents_found + page.documents.length })
      have hnotmem : task.url ∉ s.fetched_trace.map Prod.fst := by
        intro hm
        obtain ⟨p, hp, hpu⟩ := List.mem_map.mp hm
        exact contains_false_not_mem hv (hpu ▸ hvis p hp)
      refine ⟨?_, ?_, ?_, ?_⟩
      · rw [hfin.2.2.2.1, hfields.2.2.2.1]
        exact hlt
      · rw [hfin.2.2.2.2.2.2, hfields.2.2.2.2.2.2, List.map_append, List.nodup_append]
        exact ⟨hnd, List.nodup_singleton _, by simpa [List.disjoint_singleton] using hnotmem⟩
      · intro p hp
        rw [hfin.2.2.2.2.2.2, hfields.2.2.2.2.2.2] at hp
        rw [hfin.1, hfields.2.1]
        rcases List.mem_append.mp hp with hp | hp
        · exact List.mem_cons_of_mem _ (hvis p hp)
        · rw [List.mem_singleton.mp hp]
          exact List.mem_cons_self _ _
      · intro p hp
        rw [hfin.2.2.2.2.2.2, hfields.2.2.2.2.2.2] at hp
        rcases List.mem_append.mp hp with hp | hp
        · exact hdep p hp
        · rw [List.mem_singleton.mp hp]
          exact hdle
  have hinit : ∀ root, (initState root).pages_visited ≤ cfg.max_pages_per_insurer ∧
      ((initState root).fetched_trace.map Prod.fst).Nodup ∧
      (∀ p ∈ (initState root).fetched_trace, p.1 ∈ (initState root).visited) ∧
      (∀ p ∈ (initState root).fetched_trace, p.2 ≤ cfg.max_depth) := by
    intro root
    exact ⟨Nat.zero_le _, List.nodup_nil, fun p hp => absurd hp (List.not_mem_nil p),
      fun p hp => absurd hp (List.not_mem_nil p)⟩
  refine ⟨?_, ?_, ?_, ?_⟩
  · intro insurer n hstat
    rw [crawl_insurer] at hstat
    by_cases hroot : ensure_url_has_scheme parse insurer.website_url = ""
    · rw [if_pos hroot] at hstat
      exact absurd hstat (by simp [alGet_nil])
    · rw [if_neg hroot] at hstat
      have hstat2 : alGet
          [("pages_visited", (crawlLoop cfg fetch proc fuel
              (initState (ensure_url_has_scheme parse insurer.website_url))).pages_visited),
           ("pages_skipped", (crawlLoop cfg fetch proc fuel
              (initState (ensure_url_has_scheme parse insurer.website_url))).pages_skipped),
           ("documents_found", (crawlLoop cfg fetch proc fuel
              (initState (ensure_url_has_scheme parse insurer.website_url))).documents_found)]
          "pages_visited" = some n := hstat
      rw [alGet_cons, if_pos rfl] at hstat2
      exact (Option.some.inj hstat2) ▸
        (hinv (initState (ensure_url_has_scheme parse insurer.website_url))
          (hinit _) fuel).1
  · intro root
    exact (hinv _ (hinit root) fuel).2.1
  · intro root p hp
    exact (hinv _ (hinit root) fuel).2.2.2 p hp
  · intro task st hv hd
    rcases processTask_cases cfg fetch proc task st with
      ⟨hv', _⟩ | ⟨_, _, heq⟩ | ⟨_, hdle, _, _⟩ | ⟨page, _, hdle, _, _⟩
    · rw [hv] at hv'; exact Bool.noConfusion hv'
    · exact heq
    · rw [hd] at hdle; exact absurd hdle (by simp)
    · rw [hd] at hdle; exact absurd hdle (by simp)

/-- C3 (witness): with the default configuration, a dequeued unvisited
task at depth `max_depth + 1 = 4` only marks the URL visited and counts a
skip. -/
theorem c3_witness :
    processTask {} emptyFetch idProc ⟨"https://a.example/x", 4⟩
        (initState "https://a.example") =
      { initState "https://a.example" with
          visited := ["https://a.example/x"], pages_skipped := 1 } := by
  have h := (c3_budget_no_refetch_depth_cutoff {} idParse emptyFetch idProc 1).2.2.2
    ⟨"https://a.example/x", 4⟩ (initState "https://a.example") rfl rfl
  exact h.trans rfl

/-! ### iter_unique lemmas -/

theorem iterUniqueAux_mem (l : List String) :
    ∀ seen v, v ∈ iterUniqueAux seen l ↔ v ∈ l ∧ v ≠ "" ∧ v ∉ seen := by
  induction l with
  | nil => intro seen v; simp [iterUniqueAux]
  | cons u rest ih =>
    intro seen v
    rw [iterUniqueAux]
    by_cases hc : u ≠ "" ∧ u ∉ seen
    · rw [if_pos hc, List.mem_cons]
      constructor
      · rintro (rfl | hv)
        · exact ⟨List.mem_cons_self _ _, hc.1, hc.2⟩
        · obtain ⟨hmem, hne, hns⟩ := (ih (u :: seen) v).mp hv
          exact ⟨List.mem_cons_of_mem _ hmem, hne,
            fun hs => hns (List.mem_cons_of_mem _ hs)⟩
      · rintro ⟨hmem, hne, hns⟩
        rcases List.mem_cons.mp hmem with rfl | hmem'
        · exact Or.inl rfl
        · by_cases hvu : v = u
          · exact Or.inl hvu
          · exact Or.inr ((ih (u :: seen) v).mpr
              ⟨hmem', hne, fun hs => (List.mem_cons.mp hs).elim hvu hns⟩)
    · rw [if_neg hc]
      rw [ih seen v]
      constructor
      · rintro ⟨hmem, hne, hns⟩
        exact ⟨List.mem_cons_of_mem _ hmem, hne, hns⟩
      · rintro ⟨hmem, hne, hns⟩
        rcases List.mem_cons.mp hmem with rfl | hmem'
        · rcases Decidable.not_and_iff_or_not.mp hc with h | h
          · exact absurd hne (by simpa using h)
          · exact absurd (by simpa using h) hns
        · exact ⟨hmem', hne, hns⟩

theorem iterUniqueAux_nodup (l : List String) :
    ∀ seen, (iterUniqueAux seen l).Nodup := by
  induction l with
  | nil => intro seen; exact List.nodup_nil
  | cons u rest ih =>
    intro seen
    rw [iterUniqueAux]
    by_cases hc : u ≠ "" ∧ u ∉ seen
    · rw [if_pos hc]
      refine List.nodup_cons.mpr ⟨?_, ih (u :: seen)⟩
      intro hu
      exact ((iterUniqueAux_mem rest (u :: seen) u).mp hu).2.2 (List.mem_cons_self _ _)
    · rw [if_neg hc]
      exact ih seen

theorem iterUniqueAux_sublist (l : List String) :
    ∀ seen, List.Sublist (iterUniqueAux seen l) l := by
  induction l with
  | nil => intro seen; exact List.Sublist.refl _
  | cons u rest ih =>
    intro seen
    rw [iterUniqueAux]
    by_cases hc : u ≠ "" ∧ u ∉ seen
    · rw [if_pos hc]
      exact List.Sublist.cons₂ u (ih (u :: seen))
    · rw [if_neg hc]
      exact List.Sublist.cons u (ih seen)

/-! ### Derived-id invariants for the accumulators -/

theorem associateOne_docInv (proc : ProductDocument → ProductDocument)
    (cands : List Product) (st : CrawlState) (doc : ProductDocument)
    (h1 : (st.documents.map Prod.fst).Nodup)
    (h2 : ∀ e ∈ st.documents, e.2.document_id = e.1) :
    ((associateOne proc cands st doc).documents.map Prod.fst).Nodup ∧
    ∀ e ∈ (associateOne proc cands st doc).documents, e.2.document_id = e.1 := by
  obtain ⟨d', hid, hdocs⟩ := associateOne_spec proc cands st doc
  rw [hdocs]
  cases hg : alGet st.documents ((proc doc).document_id) with
  | some existing =>
    constructor
    · rw [alSet_keys, if_pos (by simp [hg])]
      exact h1
    · intro e he
      rcases mem_alSet he with rfl | ⟨hmem, _⟩
      · exact h2 ((proc doc).document_id, existing) (alGet_mem hg)
      · exact h2 e hmem
  | none =>
    constructor
    · rw [List.map_append, List.nodup_append]
      refine ⟨h1, List.nodup_singleton _, ?_⟩
      simpa [List.disjoint_singleton] using (alGet_eq_none_iff st.documents _).mp hg
    · intro e he
      rcases List.mem_append.mp he with hmem | hmem
      · exact h2 e hmem
      · rw [List.mem_singleton.mp hmem]
        exact hid

theorem assocFold_docInv (proc : ProductDocument → ProductDocument)
    (cands : List Product) (docs : List ProductDocument) :
    ∀ st : CrawlState, (st.documents.map Prod.fst).Nodup →
    (∀ e ∈ st.documents, e.2.document_id = e.1) →
    (((docs.foldl (associateOne proc cands) st).documents.map Prod.fst).Nodup ∧
     ∀ e ∈ (docs.foldl (associateOne proc cands) st).documents, e.2.document_id = e.1) := by
  induction docs with
  | nil => exact fun st h1 h2 => ⟨h1, h2⟩
  | cons d t ih =>
    intro st h1 h2
    rw [List.foldl_cons]
    obtain ⟨h1', h2'⟩ := associateOne_docInv proc cands st d h1 h2
    exact ih (associateOne proc cands st d) h1' h2'

theorem mergeProductInto_prodInv (m : List (String × Product)) (product : Product)
    (h1 : (m.map Prod.fst).Nodup)
    (h2 : ∀ e ∈ m, e.2.product_id = e.1) :
    (((mergeProductInto m product).map Prod.fst).Nodup ∧
     ∀ e ∈ mergeProductInto m product, e.2.product_id = e.1) := by
  rw [mergeProductInto]
  cases hg : alGet m product.product_id with
  | some existing =>
    constructor
    · rw [alSet_keys, if_pos (by simp [hg])]
      exact h1
    · intro e he
      rcases mem_alSet he with rfl | ⟨hmem, _⟩
      · exact h2 (product.product_id, existing) (alGet_mem hg)
      · exact h2 e hmem
  | none =>
    have halset : alSet m product.product_id product
        = m ++ [(product.product_id, product)] := by
      rw [alSet, if_neg (by rw [← alGet_isSome_eq_find, hg]; simp)]
    rw [halset]
    constructor
    · rw [List.map_append, List.nodup_append]
      refine ⟨h1, List.nodup_singleton _, ?_⟩
      simpa [List.disjoint_singleton] using (alGet_eq_none_iff m _).mp hg
    · intro e he
      rcases List.mem_append.mp he with hmem | hmem
      · exact h2 e hmem
      · rw [List.mem_singleton.mp hmem]

theorem prodFold_prodInv (products : List Product) :
    ∀ m : List (String × Product), (m.map Prod.fst).Nodup →
    (∀ e ∈ m, e.2.product_id = e.1) →
    (((products.foldl mergeProductInto m).map Prod.fst).Nodup ∧
     ∀ e ∈ products.foldl mergeProductInto m, e.2.product_id = e.1) := by
  induction products with
  | nil => exact fun m h1 h2 => ⟨h1, h2⟩
  | cons p t ih =>
    intro m h1 h2
    rw [List.foldl_cons]
    obtain ⟨h1', h2'⟩ := mergeProductInto_prodInv m p h1 h2
    exact ih (mergeProductInto m p) h1' h2'

theorem processTask_idInv (cfg : ProductCrawlerConfig) (fetch : String → Option Page)
    (proc : ProductDocument → ProductDocument) (task : CrawlTask) (st : CrawlState)
    (h : ((st.documents.map Prod.fst).Nodup ∧
          (∀ e ∈ st.documents, e.2.document_id = e.1)) ∧
         ((st.products.map Prod.fst).Nodup ∧
          (∀ e ∈ st.products, e.2.product_id = e.1))) :
    (((processTask cfg fetch proc task st).documents.map Prod.fst).Nodup ∧
     (∀ e ∈ (processTask cfg fetch proc task st).documents, e.2.document_id = e.1)) ∧
    (((processTask cfg fetch proc task st).products.map Prod.fst).Nodup ∧
     (∀ e ∈ (processTask cfg fetch proc task st).products, e.2.product_id = e.1)) := by
  rcases processTask_cases cfg fetch proc task st with
    ⟨_, heq⟩ | ⟨_, _, heq⟩ | ⟨_, _, _, heq⟩ | ⟨page, _, _, _, heq⟩
  · rw [heq]; exact h
  · rw [heq]; exact h
  · rw [heq]; exact h
  · rw [heq]
    have hprod := prodFold_prodInv page.products st.products h.2.1 h.2.2
    have hfields := associateDocuments_fields proc page.products page.documents
      { st with visited := task.url :: st.visited,
                fetched_trace := st.fetched_trace ++ [(task.url, task.depth)],
                pages_visited := st.pages_visited + 1,
                products := page.products.foldl mergeProductInto st.products,
                documents_found := st.documents_found + page.documents.length }
    have hfin := finishPage_fields task page
      (associateDocuments proc page.products page.documents
        { st with visited := task.url :: st.visited,
                  fetched_trace := st.fetched_trace ++ [(task.url, task.depth)],
                  pages_visited := st.pages_visited + 1,
                  products := page.products.foldl mergeProductInto st.products,
                  documents_found := st.documents_found + page.documents.length })
    constructor
    · rw [hfin.2.2.1]
      rw [associateDocuments_eq]
      exact assocFold_docInv proc _ page.documents _ h.1.1 h.1.2
    · rw [hfin.2.1, hfields.2.2.1]
      exact hprod

theorem crawl_idInv (cfg : ProductCrawlerConfig) (fetch : String → Option Page)
    (proc : ProductDocument → ProductDocument) (fuel : Nat) (root : String) :
    (((crawlLoop cfg fetch proc fuel (initState root)).documents.map Prod.fst).Nodup ∧
     (∀ e ∈ (crawlLoop cfg fetch proc fuel (initState root)).documents,
        e.2.document_id = e.1)) ∧
    (((crawlLoop cfg fetch proc fuel (initState root)).products.map Prod.fst).Nodup ∧
     (∀ e ∈ (crawlLoop cfg fetch proc fuel (initState root)).products,
        e.2.product_id = e.1)) := by
  refine crawlLoop_inv cfg fetch proc
    (fun s => ((s.documents.map Prod.fst).Nodup ∧
        (∀ e ∈ s.documents, e.2.document_id = e.1)) ∧
      ((s.products.map Prod.fst).Nodup ∧
        (∀ e ∈ s.products, e.2.product_id = e.1)))
    (fun s q hs => hs) ?_ fuel (initState root) ?_
  · intro task s _ hs
    exact processTask_idInv cfg fetch proc task s hs
  · exact ⟨⟨List.nodup_nil, fun e he => absurd he (List.not_mem_nil e)⟩,
      ⟨List.nodup_nil, fun e he => absurd he (List.not_mem_nil e)⟩⟩

/-! ### Claim C6: one document entry per id, first non-empty wins -/

/-- C6: the result of every insurer crawl contains exactly one
`ProductDocument` per `document_id` (the id list is duplicate-free);
re-encountering an already-seen id merges instead of adding an entry (the
document map does not grow); and the merge keeps the existing id, never
overwrites a populated local path or extracted text, and fills them from
the new discovery only when they were empty. -/
theorem c6_document_dedup_and_merge :
    (∀ parse fetch proc cfg fuel insurer,
        ((crawl_insurer parse fetch proc cfg fuel insurer).documents.map
          (fun d => d.document_id)).Nodup) ∧
    (∀ (proc : ProductDocument → ProductDocument) cands st doc,
        (alGet st.documents ((proc doc).document_id)).isSome →
        (associateOne proc cands st doc).documents.length = st.documents.length) ∧
    (∀ existing processed,
        (mergeDocument existing processed).document_id = existing.document_id) ∧
    (∀ existing processed, existing.local_path ≠ none →
        (mergeDocument existing processed).local_path = existing.local_path) ∧
    (∀ existing processed, existing.local_path = none →
        (mergeDocument existing processed).local_path = processed.local_path) ∧
    (∀ existing processed, existing.extracted_text ≠ "" →
        (mergeDocument existing processed).extracted_text = existing.extracted_text) ∧
    (∀ existing processed, existing.extracted_text = "" →
        (mergeDocument existing processed).extracted_text = processed.extracted_text) := by
  refine ⟨?_, ?_, ?_, ?_, ?_, ?_, ?_⟩
  · intro parse fetch proc cfg fuel insurer
    rw [crawl_insurer]
    by_cases hroot : ensure_url_has_scheme parse insurer.website_url = ""
    · rw [if_pos hroot]
      exact List.nodup_nil
    · rw [if_neg hroot]
      obtain ⟨⟨h1, h2⟩, _⟩ := crawl_idInv cfg fetch proc fuel
        (ensure_url_has_scheme parse insurer.website_url)
      have : ((crawlLoop cfg fetch proc fuel
            (initState (ensure_url_has_scheme parse insurer.website_url))).documents.map
              (fun p => p.2)).map (fun d => d.document_id)
          = (crawlLoop cfg fetch proc fuel
            (initState (ensure_url_has_scheme parse insurer.website_url))).documents.map
              Prod.fst := by
        rw [List.map_map]
        exact List.map_congr_left (fun e he => h2 e he)
      exact this ▸ h1
  · intro proc cands st doc h
    exact associateOne_docs_length_merge proc cands st doc h
  · intro existing processed
    rfl
  · intro existing processed h
    obtain ⟨pth, hp⟩ := Option.ne_none_iff_exists'.mp h
    simp [mergeDocument, hp]
  · intro existing processed h
    simp [mergeDocument, h]
  · intro existing processed h
    simp [mergeDocument, h]
  · intro existing processed h
    simp [mergeDocument, h]

/-- C6 (witness): merging the same document id keeps the map size at one
entry, and a populated extracted text survives a merge with an empty
discovery. -/
theorem c6_witness :
    (associateOne idProc [] { initState "https://acme.example" with
        documents := [("acme-health-fhp-policy-wording", samplePolicyDocument)] }
      anchorTextDocument).documents.length = 1 ∧
    (mergeDocument samplePolicyDocument anchorTextDocument).extracted_text
      = samplePolicyDocument.extracted_text := by
  constructor
  · exact (c6_document_dedup_and_merge.2.1 idProc [] _ anchorTextDocument
      (by decide)).trans rfl
  · exact c6_document_dedup_and_merge.2.2.2.2.2.1 samplePolicyDocument
      anchorTextDocument (by decide)

theorem iterUniqueAux_congr_seen (l : List String) :
    ∀ s1 s2 : List String, (∀ x, x ∈ s1 ↔ x ∈ s2) →
    iterUniqueAux s1 l = iterUniqueAux s2 l := by
  induction l with
  | nil => intro s1 s2 _; rfl
  | cons v rest ih =>
    intro s1 s2 h
    rw [iterUniqueAux, iterUniqueAux]
    by_cases hc : v ≠ "" ∧ v ∉ s1
    · rw [if_pos hc, if_pos ⟨hc.1, fun hm => hc.2 ((h v).mpr hm)⟩]
      rw [ih (v :: s1) (v :: s2) (fun x => by simp [h x])]
    · rw [if_neg hc,
        if_neg (fun hc2 => hc ⟨hc2.1, fun hm => hc2.2 ((h v).mp hm)⟩)]
      exact ih s1 s2 h

theorem foldlDedup_eq_iterUniqueAux (l : List String) :
    ∀ acc : List String, (∀ t ∈ l, t ≠ "") →
    l.foldl (fun acc t => if t ∈ acc then acc else acc ++ [t]) acc
      = acc ++ iterUniqueAux acc l := by
  induction l with
  | nil => intro acc _; rw [List.foldl_nil, iterUniqueAux, List.append_nil]
  | cons v rest ih =>
    intro acc hne
    rw [List.foldl_cons, iterUniqueAux]
    by_cases hv : v ∈ acc
    · rw [if_pos hv, if_neg (fun hc => hc.2 hv)]
      exact ih acc (fun t ht => hne t (List.mem_cons_of_mem _ ht))
    · rw [if_neg hv,
        if_pos ⟨hne v (List.mem_cons_self _ _), hv⟩,
        ih (acc ++ [v]) (fun t ht => hne t (List.mem_cons_of_mem _ ht)),
        List.append_assoc, List.singleton_append]
      congr 2
      exact iterUniqueAux_congr_seen rest (acc ++ [v]) (v :: acc)
        (fun x => by simp [or_comm])

theorem iter_unique_eq_firstSeenDedup (l : List String)
    (h : ∀ t ∈ l, t ≠ "") : iter_unique l = firstSeenDedup l := by
  rw [iter_unique, firstSeenDedup, foldlDedup_eq_iterUniqueAux l [] h,
    List.nil_append]

/-! ### Claim C7: same-id products merge instead of duplicating -/

/-- C7: the result of every insurer crawl never contains two products with
the same `product_id`; accumulating a candidate whose id is already known
leaves the product map size unchanged (merge, not duplicate); and the
merge unions metadata keys, makes the tag list the duplicate-free union of
both tag lists preserving first-seen order — stated both by Nodup,
membership and sublist properties and exactly, as equality with the
specification-side `firstSeenDedup` of the concatenated tag lists (for
non-empty tags, as all extractor tags are category keys) — and keeps the
earliest non-empty description. -/
theorem c7_product_dedup_and_merge :
    (∀ parse fetch proc cfg fuel insurer,
        ((crawl_insurer parse fetch proc cfg fuel insurer).products.map
          (fun p => p.product_id)).Nodup) ∧
    (∀ m (product : Product), (alGet m product.product_id).isSome →
        (mergeProductInto m product).length = m.length) ∧
    (∀ (existing product : Product) (k : String),
        (alGet (mergeProduct existing product).metadata k).isSome ↔
          (alGet existing.metadata k).isSome ∨ (alGet product.metadata k).isSome) ∧
    (∀ existing product : Product, (∀ t ∈ existing.tags ++ product.tags, t ≠ "") →
        ((mergeProduct existing product).tags.Nodup ∧
         (∀ t, t ∈ (mergeProduct existing product).tags ↔
            t ∈ existing.tags ∨ t ∈ product.tags) ∧
         List.Sublist (mergeProduct existing product).tags
           (existing.tags ++ product.tags) ∧
         (mergeProduct existing product).tags
           = firstSeenDedup (existing.tags ++ product.tags))) ∧
    (∀ existing product : Product, existing.description ≠ "" →
        (mergeProduct existing product).description = existing.description) ∧
    (∀ existing product : Product, existing.description = "" →
        (mergeProduct existing product).description = product.description) := by
  refine ⟨?_, ?_, ?_, ?_, ?_, ?_⟩
  · intro parse fetch proc cfg fuel insurer
    rw [crawl_insurer]
    by_cases hroot : ensure_url_has_scheme parse insurer.website_url = ""
    · rw [if_pos hroot]
      exact List.nodup_nil
    · rw [if_neg hroot]
      obtain ⟨_, ⟨h1, h2⟩⟩ := crawl_idInv cfg fetch proc fuel
        (ensure_url_has_scheme parse insurer.website_url)
      have : ((crawlLoop cfg fetch proc fuel
            (initState (ensure_url_has_scheme parse insurer.website_url))).products.map
              (fun p => p.2)).map (fun p => p.product_id)
          = (crawlLoop cfg fetch proc fuel
            (initState (ensure_url_has_scheme parse insurer.website_url))).products.map
              Prod.fst := by
        rw [List.map_map]
        exact List.map_congr_left (fun e he => h2 e he)
      exact this ▸ h1
  · intro m product h
    rw [mergeProductInto]
    obtain ⟨existing, he⟩ := Option.isSome_iff_exists.mp h
    rw [he, alSet_length, if_pos (by simp [he])]
  · intro existing product k
    exact alGet_dictUpdate_isSome existing.metadata product.metadata k
  · intro existing product h
    refine ⟨iterUniqueAux_nodup _ [], ?_, iterUniqueAux_sublist _ [],
      iter_unique_eq_firstSeenDedup (existing.tags ++ product.tags) h⟩
    intro t
    rw [show (mergeProduct existing product).tags
          = iterUniqueAux [] (existing.tags ++ product.tags) from rfl]
    rw [iterUniqueAux_mem]
    constructor
    · rintro ⟨hmem, _, _⟩
      exact List.mem_append.mp hmem
    · intro hmem
      have hm := List.mem_append.mpr hmem
      exact ⟨hm, h t hm, List.not_mem_nil t⟩
  · intro existing product h
    simp [mergeProduct, h]
  · intro existing product h
    simp [mergeProduct, h]

/-- C7 (witness): merging two concrete same-id candidates yields
duplicate-free tags containing exactly the union, and the earliest
non-empty description (the newer one here, since the older is empty). -/
theorem c7_witness :
    (mergeProduct mergeProductA mergeProductB).tags.Nodup ∧
    (mergeProduct mergeProductA mergeProductB).tags = ["health", "motor"] ∧
    ("motor" ∈ (mergeProduct mergeProductA mergeProductB).tags ↔
      "motor" ∈ mergeProductA.tags ∨ "motor" ∈ mergeProductB.tags) ∧
    (mergeProduct mergeProductA mergeProductB).description
      = "Covers hospitalisation" := by
  refine ⟨(c7_product_dedup_and_merge.2.2.2.1 mergeProductA mergeProductB
      (by decide)).1,
    ((c7_product_dedup_and_merge.2.2.2.1 mergeProductA mergeProductB
      (by decide)).2.2.2).trans rfl,
    (c7_product_dedup_and_merge.2.2.2.1 mergeProductA mergeProductB
      (by decide)).2.1 "motor",
    (c7_product_dedup_and_merge.2.2.2.2.2 mergeProductA mergeProductB rfl).trans rfl⟩

theorem processTask_found_delta (cfg : ProductCrawlerConfig)
    (fetch : String → Option Page) (proc : ProductDocument → ProductDocument)
    (task : CrawlTask) (st : CrawlState) :
    (processTask cfg fetch proc task st).documents.length + st.documents_found ≤
      (processTask cfg fetch proc task st).documents_found + st.documents.length := by
  rcases processTask_cases cfg fetch proc task st with
    ⟨_, heq⟩ | ⟨_, _, heq⟩ | ⟨_, _, _, heq⟩ | ⟨page, _, _, _, heq⟩
  · rw [heq]; omega
  · rw [heq]
    show st.documents.length + st.documents_found ≤
      st.documents_found + st.documents.length
    omega
  · rw [heq]
    show st.documents.length + st.documents_found ≤
      st.documents_found + st.documents.length
    omega
  · rw [heq]
    have hfin := finishPage_fields task page
      (associateDocuments proc page.products page.documents
        { st with visited := task.url :: st.visited,
                  fetched_trace := st.fetched_trace ++ [(task.url, task.depth)],
                  pages_visited := st.pages_visited + 1,
                  products := page.products.foldl mergeProductInto st.products,
                  documents_found := st.documents_found + page.documents.length })
    have hfields := associateDocuments_fields proc page.products page.documents
      { st with visited := task.url :: st.visited,
                fetched_trace := st.fetched_trace ++ [(task.url, task.depth)],
                pages_visited := st.pages_visited + 1,
                products := page.products.foldl mergeProductInto st.products,
                documents_found := st.documents_found + page.documents.length }
    have hlen : (associateDocuments proc page.products page.documents
        { st with visited := task.url :: st.visited,
                  fetched_trace := st.fetched_trace ++ [(task.url, task.depth)],
                  pages_visited := st.pages_visited + 1,
                  products := page.products.foldl mergeProductInto st.products,
                  documents_found := st.documents_found + page.documents.length
                  }).documents.length ≤
        st.documents.length + page.documents.length := by
      rw [associateDocuments_eq]
      exact assocFold_docs_length_le proc _ page.documents _
    rw [hfin.2.2.1, hfin.2.2.2.2.2.1, hfields.2.2.2.2.2.1]
    show (associateDocuments proc page.products page.documents
        { st with visited := task.url :: st.visited,
                  fetched_trace := st.fetched_trace ++ [(task.url, task.depth)],
                  pages_visited := st.pages_visited + 1,
                  products := page.products.foldl mergeProductInto st.products,
                  documents_found := st.documents_found + page.documents.length
                  }).documents.length + st.documents_found ≤
      (st.documents_found + page.documents.length) + st.documents.length
    omega

theorem crawlLoop_found_delta (cfg : ProductCrawlerConfig)
    (fetch : String → Option Page) (proc : ProductDocument → ProductDocument) :
    ∀ (fuel : Nat) (st : CrawlState),
    (crawlLoop cfg fetch proc fuel st).documents.length + st.documents_found ≤
      (crawlLoop cfg fetch proc fuel st).documents_found + st.documents.length := by
  intro fuel
  induction fuel with
  | zero =>
    intro st
    show st.documents.length + st.documents_found ≤
      st.documents_found + st.documents.length
    omega
  | succ n ih =>
    intro st
    cases hqe : st.queue with
    | nil => rw [crawlLoop_nil cfg fetch proc n st hqe]; omega
    | cons task rest =>
      rw [crawlLoop_cons cfg fetch proc n task rest st hqe]
      by_cases hb : cfg.max_pages_per_insurer ≤ st.pages_visited
      · rw [if_pos hb]; omega
      · rw [if_neg hb]
        have h1 := processTask_found_delta cfg fetch proc task { st with queue := rest }
        have h2 := ih (processTask cfg fetch proc task { st with queue := rest })
        have e1 : ({ st with queue := rest } : CrawlState).documents_found
            = st.documents_found := rfl
        have e2 : ({ st with queue := rest } : CrawlState).documents.length
            = st.documents.length := rfl
        omega

/-! ### Claim C10: documents_found counts pre-dedup discoveries -/

/-- C10: the difference between the `documents_found` counter and the size
of the deduplicated document map never decreases across the crawl loop, so
the final counter reported in the stats is at least the number of distinct
documents in the result; and a page on which a document with an
already-seen id is discovered again contributes strictly fewer new map
entries than discoveries, making the counter strictly exceed the map
growth for that page. -/
theorem c10_found_counts_pre_dedup (cfg : ProductCrawlerConfig)
    (fetch : String → Option Page) (proc : ProductDocument → ProductDocument) :
    (∀ fuel st, (crawlLoop cfg fetch proc fuel st).documents.length +
        st.documents_found ≤
      (crawlLoop cfg fetch proc fuel st).documents_found + st.documents.length) ∧
    (∀ parse fuel insurer n,
        alGet (crawl_insurer parse fetch proc cfg fuel insurer).stats
          "documents_found" = some n →
        (crawl_insurer parse fetch proc cfg fuel insurer).documents.length ≤ n) ∧
    (∀ page_products docs st (doc : ProductDocument), doc ∈ docs →
        (alGet st.documents ((proc doc).document_id)).isSome →
        (associateDocuments proc page_products docs st).documents.length + 1 ≤
          st.documents.length + docs.length) := by
  refine ⟨crawlLoop_found_delta cfg fetch proc, ?_, ?_⟩
  · intro parse fuel insurer n hstat
    rw [crawl_insurer] at hstat ⊢
    by_cases hroot : ensure_url_has_scheme parse insurer.website_url = ""
    · rw [if_pos hroot] at hstat
      exact absurd hstat (by simp [alGet_nil])
    · rw [if_neg hroot] at hstat ⊢
      have hstat2 : alGet
          [("pages_visited", (crawlLoop cfg fetch proc fuel
              (initState (ensure_url_has_scheme parse insurer.website_url))).pages_visited),
           ("pages_skipped", (crawlLoop cfg fetch proc fuel
              (initState (ensure_url_has_scheme parse insurer.website_url))).pages_skipped),
           ("documents_found", (crawlLoop cfg fetch proc fuel
              (initState (ensure_url_has_scheme parse insurer.website_url))).documents_found)]
          "documents_found" = some n := hstat
      rw [alGet_cons, if_neg (by decide), alGet_cons, if_neg (by decide),
          alGet_cons, if_pos rfl] at hstat2
      have hd := crawlLoop_found_delta cfg fetch proc fuel
        (initState (ensure_url_has_scheme parse insurer.website_url))
      have hlen : ((crawlLoop cfg fetch proc fuel
          (initState (ensure_url_has_scheme parse insurer.website_url))).documents.map
            (fun p => p.2)).length
          = (crawlLoop cfg fetch proc fuel
          (initState (ensure_url_has_scheme parse insurer.website_url))).documents.length :=
        List.length_map _ _
      have hn := Option.some.inj hstat2
      have e1 : (initState (ensure_url_has_scheme parse insurer.website_url)).documents_found
          = 0 := rfl
      have e2 : (initState
          (ensure_url_has_scheme parse insurer.website_url)).documents.length = 0 := rfl
      simp only [hlen]
      omega
  · intro page_products docs st doc hmem hkey
    rw [associateDocuments_eq]
    exact assocFold_docs_length_strict proc _ docs st doc hmem hkey

/-- C10 (witness): re-discovering a document whose id is already in the
map adds no new entry, so the page's discovery count strictly exceeds the
map growth. -/
theorem c10_witness :
    (associateDocuments idProc [] [anchorTextDocument]
        { initState "https://acme.example" with
          documents := [("acme-health-fhp-policy-wording", samplePolicyDocument)]
          }).documents.length + 1 ≤ 2 := by
  have h := (c10_found_counts_pre_dedup {} emptyFetch idProc).2.2 []
    [anchorTextDocument]
    { initState "https://acme.example" with
      documents := [("acme-health-fhp-policy-wording", samplePolicyDocument)] }
    anchorTextDocument (by decide) (by decide)
  exact h

/-! ### Claim C4: crawl without a seed URL -/

/-- C4 (counterexample): for an insurer with no website URL the returned
stats dict is empty: it does not contain explicit zero-valued counters, so
looking up any of the three counters yields nothing rather than `0`. -/
theorem c4_counterexample :
    (crawl_insurer idParse emptyFetch idProc {} 0 noWebsiteInsurer).products = [] ∧
    (crawl_insurer idParse emptyFetch idProc {} 0 noWebsiteInsurer).documents = [] ∧
    alGet (crawl_insurer idParse emptyFetch idProc {} 0 noWebsiteInsurer).stats
      "pages_visited" = none ∧
    alGet (crawl_insurer idParse emptyFetch idProc {} 0 noWebsiteInsurer).stats
      "pages_skipped" = none ∧
    alGet (crawl_insurer idParse emptyFetch idProc {} 0 noWebsiteInsurer).stats
      "documents_found" = none :=
  ⟨rfl, rfl, rfl, rfl, rfl⟩

/-- C4 (amended): for every insurer with an empty `website_url`,
`crawl_insurer` is a no-op returning empty products, empty documents and
an *empty* stats mapping — the counters are absent rather than stored as
explicit zeros, so each counter read with a default of `0` yields `0`. -/
theorem c4_no_seed_noop (parse : String → String) (fetch : String → Option Page)
    (proc : ProductDocument → ProductDocument) (cfg : ProductCrawlerConfig)
    (fuel : Nat) (insurer : Insurer) (h : insurer.website_url = "") :
    crawl_insurer parse fetch proc cfg fuel insurer =
      { insurer := insurer, products := [], documents := [], stats := [] } ∧
    (∀ k, (alGet (crawl_insurer parse fetch proc cfg fuel insurer).stats k).getD 0
      = 0) := by
  have hroot : ensure_url_has_scheme parse insurer.website_url = "" := by
    rw [h, ensure_url_has_scheme, if_pos rfl]
  constructor
  · rw [crawl_insurer, if_pos hroot]
  · intro k
    rw [crawl_insurer, if_pos hroot]
    rfl

/-- C4 (witness): the concrete no-URL insurer yields the empty result. -/
theorem c4_witness :
    crawl_insurer idParse emptyFetch idProc {} 5 noWebsiteInsurer =
      { insurer := noWebsiteInsurer, products := [], documents := [], stats := [] } :=
  (c4_no_seed_noop idParse emptyFetch idProc {} 5 noWebsiteInsurer rfl).1

/-! ### Shape lemmas for the segmenter round trip -/

theorem head?_append_left {α : Type} (a b : List α) (h : a ≠ []) :
    (a ++ b).head? = a.head? := by
  cases a with
  | nil => exact absurd rfl h
  | cons c t => rfl

theorem getLast?_append_right {α : Type} (a b : List α) (h : b ≠ []) :
    (a ++ b).getLast? = b.getLast? := by
  rw [List.getLast?_append]
  cases hb : b.getLast? with
  | none => exact absurd (List.getLast?_eq_none_iff.mp hb) h
  | some c => rfl

theorem strAppend_assoc (a b c : String) : (a ++ b) ++ c = a ++ (b ++ c) := by
  apply String.ext
  simp [String.data_append, List.append_assoc]

theorem trimWs_eq_self {l : List Char} (h : goodL l) : trimWs l = l := by
  obtain ⟨hne, hh, hl⟩ := h
  have h1 : l.dropWhile isWs = l := by
    cases hc : l with
    | nil => rfl
    | cons c t =>
      have hcw : isWs c = false := hh c (by rw [hc]; rfl)
      rw [List.dropWhile_cons, if_neg (by simp [hcw])]
  have h2 : l.reverse.dropWhile isWs = l.reverse := by
    cases hr : l.reverse with
    | nil => rfl
    | cons c' t' =>
      have hc'w : isWs c' = false := by
        apply hl c'
        rw [← List.head?_reverse, hr]
        rfl
      rw [List.dropWhile_cons, if_neg (by simp [hc'w])]
  rw [trimWs, h1, h2, List.reverse_reverse]

theorem pyStrip_eq_self {s : String} (h : goodL s.data) : pyStrip s = s :=
  String.ext (trimWs_eq_self h)

theorem joinNl_cons (x : String) (rest : List String) (h : rest ≠ []) :
    joinNl (x :: rest) = x ++ "\n" ++ joinNl rest := by
  cases rest with
  | nil => exact absurd rfl h
  | cons y t => rfl

theorem joinNl_append (a b : List String) (ha : a ≠ []) (hb : b ≠ []) :
    joinNl (a ++ b) = joinNl a ++ "\n" ++ joinNl b := by
  induction a with
  | nil => exact absurd rfl ha
  | cons x a' ih =>
    cases a' with
    | nil =>
      rw [List.singleton_append, joinNl_cons x b hb]
      rfl
    | cons y t =>
      rw [List.cons_append, joinNl_cons x ((y :: t) ++ b) (by simp),
        ih (by simp), joinNl_cons x (y :: t) (by simp)]
      apply String.ext
      simp [String.data_append, List.append_assoc]

theorem joinNl_good : ∀ ls : List String, ls ≠ [] → (∀ l ∈ ls, goodL l.data) →
    goodL (joinNl ls).data := by
  intro ls
  induction ls with
  | nil => intro h; exact absurd rfl h
  | cons x rest ih =>
    intro _ hall
    cases rest with
    | nil => exact hall x (List.mem_singleton.mpr rfl)
    | cons y t =>
      have hx := hall x (List.mem_cons_self _ _)
      have hrest : goodL (joinNl (y :: t)).data :=
        ih (by simp) (fun l hl => hall l (List.mem_cons_of_mem _ hl))
      rw [joinNl_cons x (y :: t) (by simp)]
      have hdata : (x ++ "\n" ++ joinNl (y :: t)).data
          = (x.data ++ ['\n']) ++ (joinNl (y :: t)).data := by
        simp [String.data_append]
      rw [hdata]
      refine ⟨by simp [hx.1], ?_, ?_⟩
      · intro c hc
        rw [head?_append_left _ _ (by simp [hx.1]),
          head?_append_left _ _ hx.1] at hc
        exact hx.2.1 c hc
      · intro c hc
        rw [getLast?_append_right _ _ hrest.1] at hc
        exact hrest.2.2 c hc

theorem joinNl_ne_empty (ls : List String) (h : ls ≠ [])
    (hall : ∀ l ∈ ls, goodL l.data) : joinNl ls ≠ "" := by
  intro he
  exact (joinNl_good ls h hall).1 (by rw [he])

theorem wordsAux_good (l : List Char) :
    ∀ cur, (∀ x ∈ cur, isWs x = false) →
    ∀ w ∈ wordsAux cur l, w ≠ [] ∧ ∀ c ∈ w, isWs c = false := by
  induction l with
  | nil =>
    intro cur hcur w hw
    rw [wordsAux] at hw
    by_cases hce : cur.isEmpty
    · rw [if_pos hce] at hw
      exact absurd hw (List.not_mem_nil w)
    · rw [if_neg hce] at hw
      rw [List.mem_singleton.mp hw]
      refine ⟨by simpa using (by simpa [List.isEmpty_iff] using hce : cur ≠ []), ?_⟩
      intro c hc
      exact hcur c (List.mem_reverse.mp hc)
  | cons a rest ih =>
    intro cur hcur w hw
    rw [wordsAux] at hw
    by_cases ha : isWs a
    · rw [if_pos ha] at hw
      by_cases hce : cur.isEmpty
      · rw [if_pos hce] at hw
        exact ih [] (fun x hx => absurd hx (List.not_mem_nil x)) w hw
      · rw [if_neg hce] at hw
        rcases List.mem_cons.mp hw with rfl | hw'
        · refine ⟨by simpa using (by simpa [List.isEmpty_iff] using hce : cur ≠ []), ?_⟩
          intro c hc
          exact hcur c (List.mem_reverse.mp hc)
        · exact ih [] (fun x hx => absurd hx (List.not_mem_nil x)) w hw'
    · rw [if_neg ha] at hw
      refine ih (a :: cur) ?_ w hw
      intro x hx
      rcases List.mem_cons.mp hx with rfl | hx'
      · cases h : isWs x
        · rfl
        · exact absurd h ha
      · exact hcur x hx'

theorem joinSpace_good : ∀ ws : List (List Char), ws ≠ [] →
    (∀ w ∈ ws, w ≠ [] ∧ ∀ c ∈ w, isWs c = false) →
    goodL (joinSpace ws) := by
  intro ws
  induction ws with
  | nil => intro h; exact absurd rfl h
  | cons w rest ih =>
    intro _ hall
    have hw := hall w (List.mem_cons_self _ _)
    cases rest with
    | nil =>
      refine ⟨hw.1, ?_, ?_⟩
      · intro c hc
        exact hw.2 c (List.mem_of_mem_head? hc)
      · intro c hc
        exact hw.2 c (List.mem_of_mem_getLast? hc)
    | cons w' t =>
      have hrest : goodL (joinSpace (w' :: t)) :=
        ih (by simp) (fun x hx => hall x (List.mem_cons_of_mem _ hx))
      have hjs : joinSpace (w :: w' :: t) = w ++ ' ' :: joinSpace (w' :: t) := rfl
      rw [hjs]
      refine ⟨by simp [hw.1], ?_, ?_⟩
      · intro c hc
        rw [head?_append_left _ _ hw.1] at hc
        exact hw.2 c (List.mem_of_mem_head? hc)
      · intro c hc
        rw [getLast?_append_right _ _ (by simp)] at hc
        rw [show (' ' :: joinSpace (w' :: t)) = [' '] ++ joinSpace (w' :: t) from rfl,
          getLast?_append_right _ _ hrest.1] at hc
        exact hrest.2.2 c hc

theorem clean_text_shape (s : String) :
    clean_text s = "" ∨ goodL (clean_text s).data := by
  rw [clean_text, normalizeWhitespaceL]
  cases hws : wordsL (stripHindiL s.data) with
  | nil => left; rfl
  | cons w ws' =>
    right
    have : (String.mk (joinSpace (w :: ws'))).data = joinSpace (w :: ws') := rfl
    rw [this]
    refine joinSpace_good (w :: ws') (by simp) ?_
    intro x hx
    rw [← hws] at hx
    exact wordsAux_good (stripHindiL s.data) []
      (fun y hy => absurd hy (List.not_mem_nil y)) x hx

theorem sectionsGo_bodies (ls : List String) :
    ∀ (title : String) (buffer : List String) (acc : List (String × String)),
    (sectionsGo ls title buffer acc).map (fun s => s.2)
      = acc.map (fun s => s.2) ++ chunksOf buffer ls := by
  induction ls with
  | nil =>
    intro title buffer acc
    rw [sectionsGo, chunksOf]
    by_cases hb : buffer.isEmpty
    · rw [if_pos hb, if_pos hb, List.append_nil]
    · rw [if_neg hb, if_neg hb, List.map_append]
      rfl
  | cons l rest ih =>
    intro title buffer acc
    rw [sectionsGo, chunksOf]
    by_cases hl : l = ""
    · rw [if_pos hl, if_pos hl]
      exact ih title buffer acc
    · rw [if_neg hl, if_neg hl]
      by_cases hh : _looks_like_heading l
      · rw [if_pos hh, if_pos hh]
        by_cases hb : buffer.isEmpty
        · rw [if_pos hb, if_pos hb]
          exact ih _ [] acc
        · rw [if_neg hb, if_neg hb,
            ih _ [] (acc ++ [(title, joinedBody buffer)]), List.map_append]
          simp
      · rw [if_neg hh, if_neg hh]
        exact ih title (buffer ++ [l]) acc

theorem joinedBody_good {buffer : List String} (hbne : buffer ≠ [])
    (hbuf : ∀ l ∈ buffer, goodL l.data) :
    joinedBody buffer = joinNl buffer ∧ joinedBody buffer ≠ "" ∧
      goodL (joinedBody buffer).data := by
  have hgood := joinNl_good buffer hbne hbuf
  have heq : joinedBody buffer = joinNl buffer := by
    rw [joinedBody]
    exact pyStrip_eq_self hgood
  refine ⟨heq, ?_, ?_⟩
  · rw [heq]
    exact joinNl_ne_empty buffer hbne hbuf
  · rw [heq]
    exact hgood

theorem chunksOf_good (ls : List String) :
    ∀ buffer, (∀ l ∈ ls, l = "" ∨ goodL l.data) → (∀ l ∈ buffer, goodL l.data) →
    ∀ c ∈ chunksOf buffer ls, c ≠ "" ∧ goodL c.data := by
  induction ls with
  | nil =>
    intro buffer _ hbuf c hc
    rw [chunksOf] at hc
    by_cases hb : buffer.isEmpty
    · rw [if_pos hb] at hc
      exact absurd hc (List.not_mem_nil c)
    · rw [if_neg hb] at hc
      rw [List.mem_singleton.mp hc]
      have hbne : buffer ≠ [] := by simpa [List.isEmpty_iff] using hb
      exact (joinedBody_good hbne hbuf).2
  | cons l rest ih =>
    intro buffer hls hbuf c hc
    have hlsrest : ∀ x ∈ rest, x = "" ∨ goodL x.data :=
      fun x hx => hls x (List.mem_cons_of_mem _ hx)
    rw [chunksOf] at hc
    by_cases hl : l = ""
    · rw [if_pos hl] at hc
      exact ih buffer hlsrest hbuf c hc
    · rw [if_neg hl] at hc
      have hlg : goodL l.data := (hls l (List.mem_cons_self _ _)).resolve_left hl
      by_cases hh : _looks_like_heading l
      · rw [if_pos hh] at hc
        by_cases hb : buffer.isEmpty
        · rw [if_pos hb] at hc
          exact ih [] hlsrest (fun x hx => absurd hx (List.not_mem_nil x)) c hc
        · rw [if_neg hb] at hc
          have hbne : buffer ≠ [] := by simpa [List.isEmpty_iff] using hb
          rcases List.mem_cons.mp hc with rfl | hc'
          · exact (joinedBody_good hbne hbuf).2
          · exact ih [] hlsrest (fun x hx => absurd hx (List.not_mem_nil x)) c hc'
      · rw [if_neg hh] at hc
        refine ih (buffer ++ [l]) hlsrest ?_ c hc
        intro x hx
        rcases List.mem_append.mp hx with hx' | hx'
        · exact hbuf x hx'
        · rw [List.mem_singleton.mp hx']
          exact hlg

theorem joinNl_chunksOf (ls : List String) :
    ∀ buffer, (∀ l ∈ ls, l = "" ∨ goodL l.data) → (∀ l ∈ buffer, goodL l.data) →
    joinNl (chunksOf buffer ls) =
      joinNl (buffer ++ ls.filter
        (fun l => decide (l ≠ "") && !_looks_like_heading l)) := by
  induction ls with
  | nil =>
    intro buffer hls hbuf
    rw [chunksOf, List.filter_nil, List.append_nil]
    by_cases hb : buffer.isEmpty
    · rw [if_pos hb, List.isEmpty_iff.mp hb]
    · rw [if_neg hb]
      have hbne : buffer ≠ [] := by simpa [List.isEmpty_iff] using hb
      exact (joinedBody_good hbne hbuf).1
  | cons l rest ih =>
    intro buffer hls hbuf
    have hlsrest : ∀ x ∈ rest, x = "" ∨ goodL x.data :=
      fun x hx => hls x (List.mem_cons_of_mem _ hx)
    rw [chunksOf]
    by_cases hl : l = ""
    · rw [if_pos hl, List.filter_cons, if_neg (by simp [hl])]
      exact ih buffer hlsrest hbuf
    · have hlg : goodL l.data := (hls l (List.mem_cons_self _ _)).resolve_left hl
      rw [if_neg hl]
      by_cases hh : _looks_like_heading l
      · rw [if_pos hh]
        by_cases hb : buffer.isEmpty
        · rw [if_pos hb, List.isEmpty_iff.mp hb, List.filter_cons,
            if_neg (show ¬((decide (l ≠ "") && !_looks_like_heading l) = true)
              from by simp [hh])]
          exact ih [] hlsrest (fun x hx => absurd hx (List.not_mem_nil x))
        · rw [if_neg hb, List.filter_cons,
            if_neg (show ¬((decide (l ≠ "") && !_looks_like_heading l) = true)
              from by simp [hh])]
          have hbne : buffer ≠ [] := by simpa [List.isEmpty_iff] using hb
          have hjb := joinedBody_good hbne hbuf
          have hfiltergood : ∀ x ∈ rest.filter
              (fun l => decide (l ≠ "") && !_looks_like_heading l), goodL x.data := by
            intro x hx
            have hmem := List.mem_of_mem_filter hx
            have hxne : x ≠ "" := by
              have hprop := List.of_mem_filter hx
              simp only [Bool.and_eq_true, decide_eq_true_eq] at hprop
              exact hprop.1
            exact (hlsrest x hmem).resolve_left hxne
          by_cases hcl : chunksOf [] rest = []
          · rw [hcl]
            have hfe : rest.filter
                (fun l => decide (l ≠ "") && !_looks_like_heading l) = [] := by
              by_contra hne
              refine joinNl_ne_empty _ hne hfiltergood ?_
              have hih := ih [] hlsrest (fun x hx => absurd hx (List.not_mem_nil x))
              rw [hcl, List.nil_append] at hih
              exact hih.symm
            rw [hfe, List.append_nil]
            exact hjb.1
          · have hfne : rest.filter
                (fun l => decide (l ≠ "") && !_looks_like_heading l) ≠ [] := by
              intro hfe
              have hchunksgood := chunksOf_good rest [] hlsrest
                (fun x hx => absurd hx (List.not_mem_nil x))
              refine joinNl_ne_empty (chunksOf [] rest) hcl
                (fun c hc => (hchunksgood c hc).2) ?_
              rw [ih [] hlsrest (fun x hx => absurd hx (List.not_mem_nil x)),
                List.nil_append, hfe]
              rfl
            rw [joinNl_cons _ _ hcl,
              ih [] hlsrest (fun x hx => absurd hx (List.not_mem_nil x)),
              List.nil_append, hjb.1, joinNl_append buffer _ hbne hfne]
      · rw [if_neg hh, List.filter_cons, if_pos (by simp [hl, hh])]
        rw [ih (buffer ++ [l]) hlsrest ?_]
        · rw [List.append_assoc, List.singleton_append]
        · intro x hx
          rcases List.mem_append.mp hx with hx' | hx'
          · exact hbuf x hx'
          · rw [List.mem_singleton.mp hx']
            exact hlg

theorem sectionsGo_extends_acc (ls : List String) :
    ∀ (title : String) (buffer : List String) (acc : List (String × String)),
    ∃ tail, sectionsGo ls title buffer acc = acc ++ tail := by
  induction ls with
  | nil =>
    intro t b acc
    rw [sectionsGo]
    by_cases hb : b.isEmpty
    · exact ⟨[], by rw [if_pos hb, List.append_nil]⟩
    · exact ⟨[(t, joinedBody b)], by rw [if_neg hb]⟩
  | cons l rest ih =>
    intro t b acc
    rw [sectionsGo]
    by_cases hl : l = ""
    · rw [if_pos hl]
      exact ih t b acc
    · rw [if_neg hl]
      by_cases hh : _looks_like_heading l
      · rw [if_pos hh]
        by_cases hb : b.isEmpty
        · rw [if_pos hb]
          exact ih _ [] acc
        · rw [if_neg hb]
          obtain ⟨tail, htail⟩ := ih (String.mk (trimWs (rstripColonL l.data))) []
            (acc ++ [(t, joinedBody b)])
          exact ⟨(t, joinedBody b) :: tail,
            by rw [htail, List.append_assoc, List.singleton_append]⟩
      · rw [if_neg hh]
        exact ih t (b ++ [l]) acc

theorem sectionsGo_head_of_buffer (ls : List String) :
    ∀ (title : String) (buffer : List String) (acc : List (String × String)),
    buffer ≠ [] →
    ∃ body tail, sectionsGo ls title buffer acc = acc ++ (title, body) :: tail := by
  induction ls with
  | nil =>
    intro t b acc hb
    rw [sectionsGo, if_neg (by simpa [List.isEmpty_iff] using hb)]
    exact ⟨joinedBody b, [], rfl⟩
  | cons l rest ih =>
    intro t b acc hb
    rw [sectionsGo]
    by_cases hl : l = ""
    · rw [if_pos hl]
      exact ih t b acc hb
    · rw [if_neg hl]
      by_cases hh : _looks_like_heading l
      · rw [if_pos hh, if_neg (by simpa [List.isEmpty_iff] using hb)]
        obtain ⟨tail, htail⟩ := sectionsGo_extends_acc rest
          (String.mk (trimWs (rstripColonL l.data))) [] (acc ++ [(t, joinedBody b)])
        exact ⟨joinedBody b, tail,
          by rw [htail, List.append_assoc, List.singleton_append]⟩
      · rw [if_neg hh]
        exact ih t (b ++ [l]) acc (by simp)

theorem sectionsGo_overview (ls : List String) :
    ∀ (title : String) (l : String),
    ls.find? (fun x => decide (x ≠ "")) = some l →
    _looks_like_heading l = false →
    ∃ body tail, sectionsGo ls title [] [] = (title, body) :: tail := by
  induction ls with
  | nil =>
    intro t l hf
    simp at hf
  | cons l0 rest ih =>
    intro t l hf hnh
    by_cases h0 : l0 = ""
    · rw [List.find?_cons_of_neg _ (by simp [h0])] at hf
      rw [sectionsGo, if_pos h0]
      exact ih t l hf hnh
    · rw [List.find?_cons_of_pos _ (by simp [h0])] at hf
      obtain rfl := Option.some.inj hf
      rw [sectionsGo, if_neg h0, if_neg (by simp [hnh])]
      obtain ⟨body, tail, htail⟩ := sectionsGo_head_of_buffer rest t [l0] [] (by simp)
      exact ⟨body, tail, by rw [List.nil_append, htail, List.nil_append]⟩

/-! ### Claim C8: segmenter round trip -/

/-- C8: joining the bodies of the segmenter's output sections (with line
separators) reconstructs exactly the join of the non-empty cleaned lines
of the input that are not classified as headings, in their original order;
and when the first non-empty cleaned line is not a heading, the first
output section is the implicit "Overview" section (trailing buffered
content being flushed at the end of input is part of the first
equality). -/
theorem c8_segmenter_roundtrip (text : String) :
    joinNl ((_split_sections text).map (fun s => s.2)) =
      joinNl (((splitLines text).map clean_text).filter
        (fun l => decide (l ≠ "") && !_looks_like_heading l)) ∧
    (∀ l, ((splitLines text).map clean_text).find? (fun x => decide (x ≠ ""))
        = some l →
      _looks_like_heading l = false →
      (_split_sections text).head?.map (fun s => s.1) = some "Overview") := by
  have hls : ∀ x ∈ (splitLines text).map clean_text, x = "" ∨ goodL x.data := by
    intro x hx
    obtain ⟨orig, _, rfl⟩ := List.mem_map.mp hx
    exact clean_text_shape orig
  constructor
  · rw [_split_sections, sectionsGo_bodies,
      show (([] : List (String × String)).map (fun s => s.2)) = [] from rfl,
      List.nil_append,
      joinNl_chunksOf ((splitLines text).map clean_text) [] hls
        (fun x hx => absurd hx (List.not_mem_nil x)),
      List.nil_append]
  · intro l hf hnh
    obtain ⟨body, tail, htail⟩ := sectionsGo_overview
      ((splitLines text).map clean_text) "Overview" l hf hnh
    rw [_split_sections, htail]
    rfl

/-- C8 (witness): on a concrete text whose first cleaned line is not a
heading, the first output section is titled "Overview". -/
theorem c8_witness :
    (_split_sections "intro words\nHEADING ONE\nbody line").head?.map (fun s => s.1)
      = some "Overview" :=
  (c8_segmenter_roundtrip "intro words\nHEADING ONE\nbody line").2
    "intro words" rfl rfl

end InsurancePlatform
